import Mathlib

/-!
Verification of the Reed-Solomon erasure coder in `rs.go` (package `rs`).

The Go source is shallowly embedded: `uint8`/`uint16` values become `Nat`
with explicit truncation (`% 256`, `% 65536`) where the machine width
matters, the process-wide `exp`/`log`/`inv` tables become lists built by
the same loops as the Go `init` function, and the `panic` calls of
`Code`/`Update` become an `Except Fault` result.  All theorems are stated
over these embedded definitions.
-/

set_option maxRecDepth 40000

namespace RS

/-! ### The field GF(2^8): source definitions from rs.go -/

/-- The characteristic polynomial constant `cp_84320 = 1<<8 | 1<<4 | 1<<3 | 1<<2 | 1<<0`. -/
def cp_84320 : Nat := 2 ^ 8 + 2 ^ 4 + 2 ^ 3 + 2 ^ 2 + 2 ^ 0

/-- The carry-less multiplication loop of `galois_multiply`:
`for ; a != 0; a >>= 1 { if a&1 != 0 { p ^= b }; b <<= 1 }` with `a b p : uint16`.
The fuel argument bounds the iteration count; `a` is a 16-bit value, so 16
iterations always suffice to reach `a = 0`, and once `a = 0` the loop stops. -/
def gmLoop : Nat → Nat → Nat → Nat → Nat
  | 0, _, _, p => p
  | fuel + 1, a, b, p =>
    if a = 0 then p
    else gmLoop fuel (a / 2) (b * 2 % 65536) (if a % 2 = 1 then p ^^^ b else p)

/-- The reduction loop of `galois_multiply`:
`for i := 1 << 15; i >= 1 << 8; i >>= 1 { if p&i != 0 { p ^= c }; c >>= 1 }`.
The counter argument `n+1` corresponds to `i = 2^(8+n)`, so the initial call
uses counter 8 (`i` running from `2^15` down to `2^8`). -/
def gmReduce (p c : Nat) : Nat → Nat
  | 0 => p
  | n + 1 => gmReduce (if p &&& 2 ^ (8 + n) ≠ 0 then p ^^^ c else p) (c / 2) n

/-- `galois_multiply(aa, bb uint8) uint8`: carry-less product reduced modulo the
characteristic polynomial; `c` starts at `cp_84320 << 7` and the final result is
truncated to `uint8`. -/
def galois_multiply (aa bb : Nat) : Nat :=
  gmReduce (gmLoop 16 aa bb 0) (cp_84320 * 2 ^ 7) 8 % 256

/-- The generator walk of `init()`: starting from `a`, produce `n` successive
values `a, a*2, (a*2)*2, ...` (multiplication by the generator 2).  `exp[i] = a`
is recorded before `a` is advanced, exactly as in the Go loop. -/
def expFrom (a : Nat) : Nat → List Nat
  | 0 => []
  | n + 1 => a :: expFrom (galois_multiply a 2) n

/-- The `exp` table (`var exp [255]uint8` filled by `init()`), starting from 1. -/
def expList : List Nat := expFrom 1 255

/-- Lookup in the `exp` table. -/
def expT (i : Nat) : Nat := expList.getD i 0

/-- The `log` table (`var log [256]uint8`): the `init()` loop writes
`log[exp[i]] = i` for `i = 0..254` into an array that starts all-zero. -/
def logList : List Nat :=
  (List.range 255).foldl (fun arr i => arr.set (expT i) i) (List.replicate 256 0)

/-- Lookup in the `log` table. -/
def logT (a : Nat) : Nat := logList.getD a 0

/-- The `inv` table of `init()`: `inv[0] = 0`, `inv[1] = 1`, and
`inv[i] = exp[255 - log[i]]` for `i = 2..255`. -/
def invT (a : Nat) : Nat :=
  if a = 0 then 0
  else if a = 1 then 1
  else expT (255 - logT a)

/-- `mult(a, b uint8) uint8`: table-lookup field multiplication with the
explicit conditional subtraction of 255 (`if idx >= 255 { idx -= 255 }`). -/
def mult (a b : Nat) : Nat :=
  if a = 0 ∨ b = 0 then 0
  else
    expT (if 255 ≤ logT a + logT b then logT a + logT b - 255 else logT a + logT b)

/-! ### Packed images of the tables

The 255 bytes of `exp` and the 256 bytes of `log` are packed, one byte per
8-bit limb, into single numerals.  These are proof artifacts: the theorems
below verify that they agree with the lists built by the embedded `init`
loops, and all exhaustive checks are then done on the packed forms, which the
kernel evaluates with bignum arithmetic. -/

def expN : Nat := 70160881166704368827218703435136616750530459438269794890424969378298545675077208731798828898087927652446353395360628748027273188182808436399538186061104243134188885576122562338679313492324190829158544377810568631194580132524405266702234305646236648896994794467054525044798919765581988418950285252905306116225263236585714808161311289784028762024137133735135393922581566890382566480334369299400480864790538739986285574563168380416343369614948461817839620668187777978661530364712890858126432457562886306102556561631759900551331094983229723298224611133722330829711659991602983068895685602467964643306841827719562658305

def logN : Nat := 22135253156888987530748098150270024343632497605293634117281264061560962248099620766229961468867162294233796152347975563017024165690400661622462404646302566225833645086064538892198543335321514950294300187779610338557442029018619797274438901674641748676613670242915365385819254959901651105240253464034662486586186382979728982817772067067513442677601938078891989292316012868233806586592927239821351197800766822366321181463280924672822998103315976779850880337712374790938628529953751181886374687897611504386983350015558142994211516619836411558782076806704747441947939324473761869443721989389604670425385080942269787340800

/-- Packed lookup in `expN` (limb `i`). -/
def pExp (i : Nat) : Nat := expN >>> (8 * i) &&& 255

/-- Packed lookup in `logN` (limb `a`). -/
def pLog (a : Nat) : Nat := logN >>> (8 * a) &&& 255

/-- The packed `exp` table starts with 1 and each limb is the previous limb
multiplied by the generator 2 via `galois_multiply` -- the recurrence of the
`init()` loop, checked exhaustively on the packed table. -/
theorem pStep : ∀ i < 254, pExp (i + 1) = galois_multiply (pExp i) 2 := by decide

theorem pBase : pExp 0 = 1 := by decide

theorem pExpLog : ∀ a < 256, a ≠ 0 → pExp (pLog a) = a := by decide

theorem pLogExp : ∀ i < 255, pLog (pExp i) = i := by decide

theorem pExpNZ : ∀ i < 255, pExp i ≠ 0 := by decide

theorem pLogLT : ∀ a < 256, pLog a < 255 := by decide

theorem pLogPos : ∀ a < 256, 2 ≤ a → 1 ≤ pLog a := by decide

theorem pLogOne : pLog 1 = 0 := by decide

theorem pLogTwo : pLog 2 = 1 := by decide

theorem pLogZero : pLog 0 = 0 := by decide

/-- Closed form of multiplication by the generator on the packed table. -/
theorem pGenClosed : ∀ x < 256, x ≠ 0 → pExp ((1 + pLog x) % 255) = 2 * x ^^^ 285 * (x / 128) := by decide

theorem pExpLT : ∀ i, pExp i < 256 := by
  intro i
  have h : pExp i ≤ 255 := Nat.and_le_right
  omega

/-! ### Bridging the embedded tables to their packed images -/

theorem getD_of_len_le {α : Type} : ∀ (l : List α) (n : Nat) (d : α), l.length ≤ n → l.getD n d = d := by
  intro l
  induction l with
  | nil => intro n d _; cases n <;> rfl
  | cons a t ih =>
    intro n d h
    cases n with
    | zero => simp at h
    | succ m => simpa using ih m d (by simpa using h)

theorem getD_set_self {α : Type} : ∀ (l : List α) (n : Nat) (v d : α), n < l.length → (l.set n v).getD n d = v := by
  intro l
  induction l with
  | nil => intro n v d h; simp at h
  | cons a t ih =>
    intro n v d h
    cases n with
    | zero => rfl
    | succ m => simpa using ih m v d (by simpa using h)

theorem getD_set_ne {α : Type} : ∀ (l : List α) (n m : Nat) (v d : α), n ≠ m → (l.set n v).getD m d = l.getD m d := by
  intro l
  induction l with
  | nil => intro n m v d _; simp
  | cons a t ih =>
    intro n m v d h
    cases n with
    | zero =>
      cases m with
      | zero => exact absurd rfl h
      | succ m2 => rfl
    | succ n2 =>
      cases m with
      | zero => rfl
      | succ m2 => simpa using ih n2 m2 v d (fun he => h (by rw [he]))

theorem getD_replicate_zero : ∀ (n k : Nat), (List.replicate n (0 : Nat)).getD k 0 = 0 := by
  intro n
  induction n with
  | zero => intro k; cases k <;> rfl
  | succ m ih =>
    intro k
    cases k with
    | zero => rfl
    | succ k2 => exact ih k2

theorem expFrom_length : ∀ (n a : Nat), (expFrom a n).length = n := by
  intro n
  induction n with
  | zero => intro a; rfl
  | succ m ih => intro a; simp [expFrom, ih]

theorem expFrom_spec : ∀ (n j : Nat), j + n ≤ 255 → ∀ k, k < n → (expFrom (pExp j) n).getD k 0 = pExp (j + k) := by
  intro n
  induction n with
  | zero => intro j _ k hk; omega
  | succ m ih =>
    intro j hj k hk
    cases k with
    | zero => simp [expFrom]
    | succ k2 =>
      have hstep : galois_multiply (pExp j) 2 = pExp (j + 1) := (pStep j (by omega)).symm
      have : (expFrom (pExp j) (m + 1)).getD (k2 + 1) 0 = (expFrom (galois_multiply (pExp j) 2) m).getD k2 0 := by
        simp [expFrom]
      rw [this, hstep, ih (j + 1) (by omega) k2 (by omega)]
      congr 1
      omega

theorem expT_eq : ∀ i < 255, expT i = pExp i := by
  intro i hi
  have h1 : expList = expFrom (pExp 0) 255 := by rw [pBase]; rfl
  have := expFrom_spec 255 0 (by omega) i hi
  simpa [expT, h1] using this

theorem expT_oob : ∀ i, 255 ≤ i → expT i = 0 := by
  intro i hi
  exact getD_of_len_le expList i 0 (by rw [show expList.length = 255 from expFrom_length 255 1]; exact hi)

theorem expT_lt : ∀ i, expT i < 256 := by
  intro i
  rcases Nat.lt_or_ge i 255 with h | h
  · rw [expT_eq i h]; exact pExpLT i
  · rw [expT_oob i h]; omega

theorem expT_ne : ∀ i < 255, expT i ≠ 0 := by
  intro i hi
  rw [expT_eq i hi]
  exact pExpNZ i hi

theorem expT_inj : ∀ i < 255, ∀ j < 255, expT i = expT j → i = j := by
  intro i hi j hj h
  have h2 : pExp i = pExp j := by rw [← expT_eq i hi, ← expT_eq j hj, h]
  have := pLogExp i hi
  rw [h2, pLogExp j hj] at this
  omega

/-- Partial builds of the `log` table: the state of the array after the first
`n` iterations of the `init()` write loop. -/
def logBuild (n : Nat) : List Nat :=
  (List.range n).foldl (fun arr i => arr.set (expT i) i) (List.replicate 256 0)

theorem logList_eq_build : logList = logBuild 255 := rfl

theorem logBuild_succ (n : Nat) : logBuild (n + 1) = (logBuild n).set (expT n) n := by
  simp [logBuild, List.range_succ]

theorem logBuild_length : ∀ n, (logBuild n).length = 256 := by
  intro n
  induction n with
  | zero => simp [logBuild]
  | succ m ih => rw [logBuild_succ, List.length_set, ih]

theorem logBuild_getD_exp : ∀ n, n ≤ 255 → ∀ i < n, (logBuild n).getD (expT i) 0 = i := by
  intro n
  induction n with
  | zero => intro _ i hi; omega
  | succ m ih =>
    intro h i hi
    rw [logBuild_succ]
    rcases Nat.lt_or_ge i m with him | him
    · have hne : expT m ≠ expT i := fun he =>
        absurd (expT_inj m (by omega) i (by omega) he) (by omega)
      rw [getD_set_ne _ _ _ _ _ hne]
      exact ih (by omega) i him
    · have : i = m := by omega
      subst this
      exact getD_set_self _ _ _ _ (by rw [logBuild_length]; exact expT_lt i)

theorem logBuild_getD_other : ∀ n, n ≤ 255 → ∀ v, (∀ i < n, expT i ≠ v) → (logBuild n).getD v 0 = 0 := by
  intro n
  induction n with
  | zero => intro _ v _; exact getD_replicate_zero 256 v
  | succ m ih =>
    intro h v hv
    rw [logBuild_succ, getD_set_ne _ _ _ _ _ (hv m (by omega))]
    exact ih (by omega) v (fun i hi => hv i (by omega))

theorem logT_eq : ∀ a < 256, logT a = pLog a := by
  intro a ha
  by_cases h0 : a = 0
  · subst h0
    have : logT 0 = 0 := logBuild_getD_other 255 (le_refl _) 0 (fun i hi => expT_ne i hi)
    rw [this, pLogZero]
  · have h1 : pExp (pLog a) = a := pExpLog a ha h0
    have h2 : pLog a < 255 := pLogLT a ha
    have h3 : expT (pLog a) = a := by rw [expT_eq _ h2, h1]
    have := logBuild_getD_exp 255 (le_refl _) (pLog a) h2
    rw [h3] at this
    exact this

theorem logT_lt : ∀ a < 256, logT a < 255 := by
  intro a ha
  rw [logT_eq a ha]
  exact pLogLT a ha

/-! ### Multiplication theory -/

theorem mult_zero_right (a : Nat) : mult a 0 = 0 := by simp [mult]

theorem mult_zero_left (a : Nat) : mult 0 a = 0 := by simp [mult]

theorem mult_comm_t (a b : Nat) : mult a b = mult b a := by
  by_cases ha : a = 0 <;> by_cases hb : b = 0 <;> simp [mult, ha, hb, Nat.add_comm]

theorem mult_pack : ∀ a b, a ≠ 0 → b ≠ 0 → a < 256 → b < 256 →
    mult a b = pExp ((pLog a + pLog b) % 255) := by
  intro a b ha hb ha2 hb2
  have hla : logT a = pLog a := logT_eq a ha2
  have hlb : logT b = pLog b := logT_eq b hb2
  have hla2 : pLog a < 255 := pLogLT a ha2
  have hlb2 : pLog b < 255 := pLogLT b hb2
  rw [mult, if_neg (by simp [ha, hb]), hla, hlb]
  rcases Nat.lt_or_ge (pLog a + pLog b) 255 with h | h
  · rw [if_neg (by omega), expT_eq _ (by omega)]
    congr 1
    omega
  · rw [if_pos h, expT_eq _ (by omega)]
    congr 1
    omega

theorem mult_lt (a b : Nat) : mult a b < 256 := by
  rw [mult]
  split
  · omega
  · exact expT_lt _

theorem mult_nz : ∀ a b, a ≠ 0 → b ≠ 0 → a < 256 → b < 256 → mult a b ≠ 0 := by
  intro a b ha hb ha2 hb2
  rw [mult_pack a b ha hb ha2 hb2]
  exact pExpNZ _ (Nat.mod_lt _ (by omega))

theorem one_mult : ∀ a < 256, mult 1 a = a := by
  intro a ha
  by_cases h0 : a = 0
  · subst h0; exact mult_zero_right 1
  · rw [mult_pack 1 a (by omega) h0 (by omega) ha, pLogOne, Nat.zero_add,
      Nat.mod_eq_of_lt (pLogLT a ha)]
    exact pExpLog a ha h0

theorem mult_one : ∀ a < 256, mult a 1 = a := by
  intro a ha
  rw [mult_comm_t]
  exact one_mult a ha

theorem pLog_mult : ∀ a b, a ≠ 0 → b ≠ 0 → a < 256 → b < 256 →
    pLog (mult a b) = (pLog a + pLog b) % 255 := by
  intro a b ha hb ha2 hb2
  rw [mult_pack a b ha hb ha2 hb2]
  exact pLogExp _ (Nat.mod_lt _ (by omega))

theorem mult_assoc_t : ∀ a b c, a < 256 → b < 256 → c < 256 →
    mult (mult a b) c = mult a (mult b c) := by
  intro a b c ha hb hc
  by_cases h0 : a = 0
  · subst h0; simp [mult_zero_left]
  by_cases h1 : b = 0
  · subst h1; simp [mult_zero_left, mult_zero_right]
  by_cases h2 : c = 0
  · subst h2; simp [mult_zero_right]
  have hab : mult a b ≠ 0 := mult_nz a b h0 h1 ha hb
  have hbc : mult b c ≠ 0 := mult_nz b c h1 h2 hb hc
  rw [mult_pack _ c hab h2 (mult_lt a b) hc, pLog_mult a b h0 h1 ha hb,
    mult_pack a _ h0 hbc ha (mult_lt b c), pLog_mult b c h1 h2 hb hc]
  congr 1
  omega

theorem invT_lt : ∀ a, invT a < 256 := by
  intro a
  rw [invT]
  split
  · omega
  split
  · omega
  exact expT_lt _

theorem mult_inv_t : ∀ a, a < 256 → a ≠ 0 → mult a (invT a) = 1 := by
  intro a ha h0
  by_cases h1 : a = 1
  · subst h1
    have : invT 1 = 1 := by simp [invT]
    rw [this]
    exact one_mult 1 (by omega)
  · have h2 : 2 ≤ a := by omega
    have hlpos : 1 ≤ pLog a := pLogPos a ha h2
    have hllt : pLog a < 255 := pLogLT a ha
    have hd : 255 - pLog a < 255 := by omega
    have hiv : invT a = pExp (255 - pLog a) := by
      rw [invT, if_neg h0, if_neg h1, logT_eq a ha, expT_eq _ hd]
    have hivnz : invT a ≠ 0 := by rw [hiv]; exact pExpNZ _ hd
    have hivlt : invT a < 256 := invT_lt a
    rw [mult_pack a _ h0 hivnz ha hivlt, hiv, pLogExp _ hd]
    have : (pLog a + (255 - pLog a)) % 255 = 0 := by omega
    rw [this, pBase]

/-! ### Distributivity of `mult` over XOR -/

theorem two_mul_xor (u v : Nat) : 2 * (u ^^^ v) = 2 * u ^^^ 2 * v := by
  have h : ∀ x : Nat, 2 * x = x <<< 1 := fun x => by
    rw [Nat.shiftLeft_eq, Nat.pow_one, Nat.mul_comm]
  rw [h, h, h]
  apply Nat.eq_of_testBit_eq
  intro i
  simp only [Nat.testBit_xor, Nat.testBit_shiftLeft]
  by_cases hi : 1 ≤ i
  · simp [ge_iff_le, hi]
  · simp [ge_iff_le, hi]

theorem shiftRight_xor (u v n : Nat) : (u ^^^ v) >>> n = u >>> n ^^^ v >>> n := by
  apply Nat.eq_of_testBit_eq
  intro i
  simp

theorem div128_xor (u v : Nat) : (u ^^^ v) / 128 = u / 128 ^^^ v / 128 := by
  have h : ∀ x : Nat, x / 128 = x >>> 7 := fun x => by
    rw [Nat.shiftRight_eq_div_pow]
  rw [h, h, h, shiftRight_xor]

/-- Closed form of multiplication by the generator 2: shift left, and reduce by
the characteristic polynomial when the high bit was set. -/
theorem mult2_closed : ∀ x < 256, mult 2 x = 2 * x ^^^ 285 * (x / 128) := by
  intro x hx
  by_cases h0 : x = 0
  · subst h0
    simp [mult]
  · rw [mult_pack 2 x (by omega) h0 (by omega) hx, pLogTwo]
    exact pGenClosed x hx h0

theorem mult2_distrib : ∀ b c, b < 256 → c < 256 →
    mult 2 (b ^^^ c) = mult 2 b ^^^ mult 2 c := by
  intro b c hb hc
  have hbc : b ^^^ c < 256 := Nat.xor_lt_two_pow (n := 8) hb hc
  rw [mult2_closed _ hbc, mult2_closed _ hb, mult2_closed _ hc, two_mul_xor, div128_xor]
  have hub : b / 128 = 0 ∨ b / 128 = 1 := by omega
  have huc : c / 128 = 0 ∨ c / 128 = 1 := by omega
  have shuffle : ∀ p q r t : Nat, (p ^^^ q) ^^^ (r ^^^ t) = (p ^^^ r) ^^^ (q ^^^ t) := by
    intro p q r t
    rw [Nat.xor_assoc, Nat.xor_assoc]
    congr 1
    rw [← Nat.xor_assoc, ← Nat.xor_assoc, Nat.xor_comm q r]
  rw [shuffle]
  rcases hub with h1 | h1 <;> rcases huc with h2 | h2 <;> simp [h1, h2, Nat.xor_self]

theorem gen_step : ∀ i, i + 1 < 255 → expT (i + 1) = mult 2 (expT i) := by
  intro i hi
  have he : expT i = pExp i := expT_eq i (by omega)
  have hnz : expT i ≠ 0 := expT_ne i (by omega)
  have hlt : expT i < 256 := expT_lt i
  rw [mult_pack 2 _ (by omega) hnz (by omega) hlt, pLogTwo, he, pLogExp i (by omega),
    Nat.mod_eq_of_lt (by omega), expT_eq _ hi]
  congr 1
  omega

theorem distrib_exp : ∀ i, i < 255 → ∀ b c, b < 256 → c < 256 →
    mult (expT i) (b ^^^ c) = mult (expT i) b ^^^ mult (expT i) c := by
  intro i
  induction i with
  | zero =>
    intro _ b c hb hc
    have h1 : expT 0 = 1 := by rw [expT_eq 0 (by omega), pBase]
    rw [h1, one_mult _ (Nat.xor_lt_two_pow (n := 8) hb hc), one_mult b hb, one_mult c hc]
  | succ i ih =>
    intro hi b c hb hc
    have hstep := gen_step i hi
    have he : expT i < 256 := expT_lt i
    have h2 : (2 : Nat) < 256 := by omega
    rw [hstep, mult_assoc_t 2 _ _ h2 he (Nat.xor_lt_two_pow (n := 8) hb hc),
      mult_assoc_t 2 _ b h2 he hb, mult_assoc_t 2 _ c h2 he hc,
      ih (by omega) b c hb hc,
      mult2_distrib _ _ (mult_lt _ b) (mult_lt _ c)]

theorem mult_distrib_t : ∀ a b c, a < 256 → b < 256 → c < 256 →
    mult a (b ^^^ c) = mult a b ^^^ mult a c := by
  intro a b c ha hb hc
  by_cases h0 : a = 0
  · subst h0
    simp [mult_zero_left]
  · have h1 : a = expT (pLog a) := by
      rw [expT_eq _ (pLogLT a ha)]
      exact (pExpLog a ha h0).symm
    rw [h1]
    exact distrib_exp _ (pLogLT a ha) b c hb hc

theorem mult_distrib_right : ∀ a b c, a < 256 → b < 256 → c < 256 →
    mult (b ^^^ c) a = mult b a ^^^ mult c a := by
  intro a b c ha hb hc
  rw [mult_comm_t _ a, mult_comm_t b a, mult_comm_t c a]
  exact mult_distrib_t a b c ha hb hc

/-! ### The field structure carried by bytes under `^^^` and `mult` -/

/-- A byte viewed as an element of GF(2^8): addition is XOR, multiplication is
`mult`, inversion is the `inv` table. -/
structure GF where
  val : Nat
  isLt : val < 256

theorem GF.ext2 {a b : GF} (h : a.val = b.val) : a = b := by
  cases a
  cases b
  simpa using h

instance : Zero GF := ⟨⟨0, by omega⟩⟩

instance : One GF := ⟨⟨1, by omega⟩⟩

instance : Add GF := ⟨fun a b => ⟨a.val ^^^ b.val, Nat.xor_lt_two_pow (n := 8) a.isLt b.isLt⟩⟩

instance : Mul GF := ⟨fun a b => ⟨mult a.val b.val, mult_lt _ _⟩⟩

instance : Neg GF := ⟨fun a => a⟩

instance : Inv GF := ⟨fun a => ⟨invT a.val, invT_lt _⟩⟩

instance : CommRing GF where
  add := (· + ·)
  add_assoc := by
    intro a b c
    apply GF.ext2
    show (a.val ^^^ b.val) ^^^ c.val = a.val ^^^ (b.val ^^^ c.val)
    exact Nat.xor_assoc _ _ _
  zero := 0
  zero_add := by
    intro a
    apply GF.ext2
    show 0 ^^^ a.val = a.val
    exact Nat.zero_xor _
  add_zero := by
    intro a
    apply GF.ext2
    show a.val ^^^ 0 = a.val
    exact Nat.xor_zero _
  add_comm := by
    intro a b
    apply GF.ext2
    show a.val ^^^ b.val = b.val ^^^ a.val
    exact Nat.xor_comm _ _
  mul := (· * ·)
  left_distrib := by
    intro a b c
    apply GF.ext2
    show mult a.val (b.val ^^^ c.val) = mult a.val b.val ^^^ mult a.val c.val
    exact mult_distrib_t _ _ _ a.isLt b.isLt c.isLt
  right_distrib := by
    intro a b c
    apply GF.ext2
    show mult (a.val ^^^ b.val) c.val = mult a.val c.val ^^^ mult b.val c.val
    exact mult_distrib_right _ _ _ c.isLt a.isLt b.isLt
  zero_mul := by
    intro a
    apply GF.ext2
    show mult 0 a.val = 0
    exact mult_zero_left _
  mul_zero := by
    intro a
    apply GF.ext2
    show mult a.val 0 = 0
    exact mult_zero_right _
  mul_assoc := by
    intro a b c
    apply GF.ext2
    show mult (mult a.val b.val) c.val = mult a.val (mult b.val c.val)
    exact mult_assoc_t _ _ _ a.isLt b.isLt c.isLt
  one := 1
  one_mul := by
    intro a
    apply GF.ext2
    show mult 1 a.val = a.val
    exact one_mult _ a.isLt
  mul_one := by
    intro a
    apply GF.ext2
    show mult a.val 1 = a.val
    exact mult_one _ a.isLt
  mul_comm := by
    intro a b
    apply GF.ext2
    show mult a.val b.val = mult b.val a.val
    exact mult_comm_t _ _
  neg := Neg.neg
  neg_add_cancel := by
    intro a
    apply GF.ext2
    show a.val ^^^ a.val = 0
    exact Nat.xor_self _
  nsmul := nsmulRec
  zsmul := zsmulRec

instance : Field GF where
  inv := Inv.inv
  exists_pair_ne := by
    refine ⟨0, 1, fun h => ?_⟩
    have h2 : (0 : Nat) = 1 := congrArg GF.val h
    omega
  mul_inv_cancel := by
    intro a ha
    apply GF.ext2
    show mult a.val (invT a.val) = 1
    refine mult_inv_t _ a.isLt (fun h0 => ha ?_)
    apply GF.ext2
    show a.val = 0
    exact h0
  inv_zero := by
    apply GF.ext2
    show invT 0 = 0
    simp [invT]
  nnqsmul := _
  qsmul := _

theorem GF.val_add (a b : GF) : (a + b).val = a.val ^^^ b.val := rfl

theorem GF.val_mul (a b : GF) : (a * b).val = mult a.val b.val := rfl

theorem GF.val_inv (a : GF) : (a⁻¹).val = invT a.val := rfl

theorem GF.val_zero : (0 : GF).val = 0 := rfl

theorem GF.val_one : (1 : GF).val = 1 := rfl

theorem GF.val_neg (a : GF) : (-a).val = a.val := rfl

theorem GF.sub_eq (a b : GF) : a - b = a + b := by
  rw [sub_eq_add_neg]
  apply GF.ext2
  show a.val ^^^ b.val = a.val ^^^ b.val
  rfl

/-! ### Lagrange interpolation exactness at three nodes -/

/-- Cleared-denominator form: interpolating the quadratic `(w-xa)(w-xb)` at
three nodes is exact; a pure ring identity. -/
theorem lagPoly {F : Type} [CommRing F] (xa xb s0 s1 s2 z : F) :
    (s0 - xa) * (s0 - xb) * ((z - s1) * (z - s2)) * (s1 - s2)
      - (s1 - xa) * (s1 - xb) * ((z - s0) * (z - s2)) * (s0 - s2)
      + (s2 - xa) * (s2 - xb) * ((z - s0) * (z - s1)) * (s0 - s1)
    = (z - xa) * (z - xb) * ((s0 - s1) * (s0 - s2) * (s1 - s2)) := by
  ring

/-- Interpolating the quadratic `(w-xa)(w-xb)` at three distinct nodes
`s0 s1 s2` and evaluating at any point `z` recovers `(z-xa)(z-xb)`. -/
theorem lag3 {F : Type} [Field F] (xa xb s0 s1 s2 z : F)
    (h01 : s0 - s1 ≠ 0) (h02 : s0 - s2 ≠ 0) (h12 : s1 - s2 ≠ 0) :
    (s0 - xa) * (s0 - xb) * ((z - s1) * (s0 - s1)⁻¹ * ((z - s2) * (s0 - s2)⁻¹)) +
    (s1 - xa) * (s1 - xb) * ((z - s0) * (s1 - s0)⁻¹ * ((z - s2) * (s1 - s2)⁻¹)) +
    (s2 - xa) * (s2 - xb) * ((z - s0) * (s2 - s0)⁻¹ * ((z - s1) * (s2 - s1)⁻¹)) =
    (z - xa) * (z - xb) := by
  have h10 : s1 - s0 ≠ 0 := fun h => h01 (by rw [show s0 - s1 = -(s1 - s0) by ring, h]; ring)
  have h20 : s2 - s0 ≠ 0 := fun h => h02 (by rw [show s0 - s2 = -(s2 - s0) by ring, h]; ring)
  have h21 : s2 - s1 ≠ 0 := fun h => h12 (by rw [show s1 - s2 = -(s2 - s1) by ring, h]; ring)
  field_simp
  linear_combination lagPoly xa xb s0 s1 s2 z

/-! ### The erasure coder: source definitions from rs.go -/

/-- Byte-row matrices (`[][]uint8`). -/
abbrev Mat := List (List Nat)

/-- `type ErasureCoder struct { interp [][]uint8 }`. -/
structure ErasureCoder where
  interp : Mat

/-- `makeMatrix(x, y int)`: an `x × y` matrix of zero bytes. -/
def makeMatrix (x y : Nat) : Mat := List.replicate x (List.replicate y 0)

/-- `lagrange(in_x []uint8, i int, xj uint8)`: the Lagrange interpolation
factor `Π_{k ≠ i} mult(xj ^ xk, inv[in_x[i] ^ xk])`, accumulated in source
order over the indexed range loop. -/
def lagrange (in_x : List Nat) (i : Nat) (xj : Nat) : Nat :=
  in_x.enum.foldl
    (fun r kx =>
      if kx.1 = i then r
      else mult r (mult (xj ^^^ kx.2) (invT (in_x.getD i 0 ^^^ kx.2))))
    1

/-- `NewErasureCoder(in_x, out_x []uint8)`: fills
`p.interp[i][j] = lagrange(in_x, i, out_x[j])`. -/
def NewErasureCoder (in_x out_x : List Nat) : ErasureCoder :=
  ⟨(List.range in_x.length).map fun i => out_x.map fun xj => lagrange in_x i xj⟩

/-- `Degree()`: `len(p.interp)`. -/
def Degree (p : ErasureCoder) : Nat := p.interp.length

/-- `NumOutputs()`: `len(p.interp[0])`; on a degree-0 coder the Go expression
`p.interp[0]` panics with an index-out-of-range error, modelled as `none`. -/
def NumOutputs (p : ErasureCoder) : Option Nat :=
  match p.interp with
  | [] => none
  | r :: _ => some r.length

/-- The panics of `Code`/`Update`: the typed preconditions plus the raw slice
index panic a degree-0 coder hits at `p.interp[0]`. -/
inductive Fault where
  | shapeMismatch
  | raggedInput
  | indexOutOfRange
  | indexPanic
deriving DecidableEq

/-- Read `m[k][j]`. -/
def mget (m : Mat) (k j : Nat) : Nat := (m.getD k []).getD j 0

/-- `m[k][j] ^= e`, the read-modify-write in the accumulation loops. -/
def mxor (m : Mat) (k j e : Nat) : Mat := m.set k ((m.getD k []).set j (mget m k j ^^^ e))

/-- The triple accumulation loop of `Code`:
`for i { for j { for k { out[k][j] ^= mult(in[i][j], p.interp[i][k]) } } }`. -/
def codeAccum (p : ErasureCoder) (inp : Mat) (out0 : Mat) : Mat :=
  (List.range inp.length).foldl
    (fun out i =>
      (List.range (inp.getD i []).length).foldl
        (fun out j =>
          (List.range (p.interp.getD i []).length).foldl
            (fun out k => mxor out k j (mult (mget inp i j) ((p.interp.getD i []).getD k 0)))
            out)
        out)
    out0

/-- `Code(in [][]uint8)`: validates the shape (panicking on mismatch), then
allocates a fresh `len(p.interp[0]) × len(in[0])` matrix and accumulates. -/
def Code (p : ErasureCoder) (inp : Mat) : Except Fault Mat :=
  if inp.length ≠ Degree p then .error .shapeMismatch
  else if ¬ (∀ i < inp.length, (inp.getD i []).length = (inp.getD 0 []).length) then
    .error .raggedInput
  else if p.interp.length = 0 then .error .indexPanic
  else .ok (codeAccum p inp (makeMatrix (p.interp.getD 0 []).length (inp.getD 0 []).length))

/-- The double accumulation loop of `Update`:
`for j { for k { out[k][j] ^= mult(in_delta[j], p.interp[idx][k]) } }`. -/
def updateAccum (p : ErasureCoder) (idx : Nat) (in_delta : List Nat) (out : Mat) : Mat :=
  (List.range in_delta.length).foldl
    (fun o j =>
      (List.range (p.interp.getD idx []).length).foldl
        (fun o k => mxor o k j (mult (in_delta.getD j 0) ((p.interp.getD idx []).getD k 0)))
        o)
    out

/-- `Update(idx uint8, in_delta []uint8, out [][]uint8)`: the index guard
compares `idx` against `uint8(len(p.interp))`, i.e. the degree truncated to
8 bits; then the shape checks; then the in-place accumulation (returned here
as the new state of `out`). -/
def Update (p : ErasureCoder) (idx : Nat) (in_delta : List Nat) (out : Mat) : Except Fault Mat :=
  if Degree p % 256 ≤ idx then .error .indexOutOfRange
  else if out.length ≠ (p.interp.getD 0 []).length then .error .shapeMismatch
  else if ¬ (∀ i < out.length, in_delta.length = (out.getD i []).length) then .error .raggedInput
  else .ok (updateAccum p idx in_delta out)

/-! ### Matrix machinery -/

theorem set_oob {α : Type} : ∀ (l : List α) (n : Nat) (v : α), l.length ≤ n → l.set n v = l := by
  intro l
  induction l with
  | nil => intro n v _; rfl
  | cons a t ih =>
    intro n v h
    cases n with
    | zero => simp at h
    | succ m => simpa using ih m v (by simpa using h)

theorem getD_replicate {α : Type} : ∀ (n k : Nat) (a d : α),
    (List.replicate n a).getD k d = if k < n then a else d := by
  intro n
  induction n with
  | zero => intro k a d; cases k <;> rfl
  | succ m ih =>
    intro k a d
    cases k with
    | zero => simp
    | succ k2 =>
      rw [List.replicate]
      simpa using ih k2 a d

/-- A matrix with `r` rows, each of length `c`. -/
def Shaped (m : Mat) (r c : Nat) : Prop :=
  m.length = r ∧ ∀ k < r, (m.getD k []).length = c

theorem makeMatrix_shaped (x y : Nat) : Shaped (makeMatrix x y) x y := by
  refine ⟨by simp [makeMatrix], fun k hk => ?_⟩
  rw [makeMatrix, getD_replicate, if_pos hk, List.length_replicate]

theorem mget_makeMatrix (x y k j : Nat) : mget (makeMatrix x y) k j = 0 := by
  rw [mget, makeMatrix, getD_replicate]
  split
  · rw [getD_replicate]
    split <;> rfl
  · cases j <;> rfl

theorem mxor_length (m : Mat) (k j e : Nat) : (mxor m k j e).length = m.length := by
  simp [mxor]

theorem mxor_rowlen (m : Mat) (k j e k' : Nat) :
    ((mxor m k j e).getD k' []).length = (m.getD k' []).length := by
  by_cases hk : k < m.length
  · by_cases he : k' = k
    · subst he
      rw [mxor, getD_set_self _ _ _ _ hk, List.length_set]
    · rw [mxor, getD_set_ne _ _ _ _ _ (fun h => he h.symm)]
  · rw [mxor, set_oob _ _ _ (by omega)]

theorem mget_mxor_self (m : Mat) (k j e : Nat) (hk : k < m.length)
    (hj : j < (m.getD k []).length) :
    mget (mxor m k j e) k j = mget m k j ^^^ e := by
  rw [mget, mxor, getD_set_self _ _ _ _ hk, getD_set_self _ _ _ _ hj]

theorem mget_mxor_ne (m : Mat) (k j e k' j' : Nat) (h : k' ≠ k ∨ j' ≠ j) :
    mget (mxor m k j e) k' j' = mget m k' j' := by
  rcases h with h | h
  · rw [mget, mxor, getD_set_ne _ _ _ _ _ (fun he => h he.symm)]
    rfl
  · by_cases hk : k' = k
    · subst hk
      by_cases hkl : k' < m.length
      · rw [mget, mxor, getD_set_self _ _ _ _ hkl, getD_set_ne _ _ _ _ _ (fun he => h he.symm)]
        rfl
      · rw [mxor, set_oob _ _ _ (by omega)]
    · rw [mget, mxor, getD_set_ne _ _ _ _ _ (fun he => hk he.symm)]
      rfl

/-- XOR of `f 0, ..., f (n-1)` in loop order. -/
def xorSum (n : Nat) (f : Nat → Nat) : Nat := (List.range n).foldl (fun a i => a ^^^ f i) 0

theorem xorSum_zero (f : Nat → Nat) : xorSum 0 f = 0 := rfl

theorem xorSum_succ (n : Nat) (f : Nat → Nat) : xorSum (n + 1) f = xorSum n f ^^^ f n := by
  rw [xorSum, xorSum, List.range_succ, List.foldl_append]
  rfl

/-! ### Characterizing the accumulation loops entry-wise -/

theorem foldk_length (j : Nat) (e : Nat → Nat) :
    ∀ (kN : Nat) (m : Mat),
      ((List.range kN).foldl (fun o k => mxor o k j (e k)) m).length = m.length := by
  intro kN
  induction kN with
  | zero => intro m; rfl
  | succ n ih =>
    intro m
    rw [List.range_succ, List.foldl_append, List.foldl_cons, List.foldl_nil, mxor_length, ih]

theorem foldk_rowlen (j : Nat) (e : Nat → Nat) :
    ∀ (kN : Nat) (m : Mat) (k' : Nat),
      (((List.range kN).foldl (fun o k => mxor o k j (e k)) m).getD k' []).length
        = ((m.getD k' []).length) := by
  intro kN
  induction kN with
  | zero => intro m k'; rfl
  | succ n ih =>
    intro m k'
    rw [List.range_succ, List.foldl_append, List.foldl_cons, List.foldl_nil, mxor_rowlen, ih]

theorem foldk_mget (j : Nat) (e : Nat → Nat) :
    ∀ (kN : Nat) (m : Mat), kN ≤ m.length →
      (∀ k < kN, j < (m.getD k []).length) → ∀ (k' j' : Nat),
      mget ((List.range kN).foldl (fun o k => mxor o k j (e k)) m) k' j'
        = if k' < kN ∧ j' = j then mget m k' j' ^^^ e k' else mget m k' j' := by
  intro kN
  induction kN with
  | zero =>
    intro m _ _ k' j'
    rw [if_neg (by omega)]
    rfl
  | succ n ih =>
    intro m hK hrows k' j'
    rw [List.range_succ, List.foldl_append, List.foldl_cons, List.foldl_nil]
    by_cases hc : k' = n ∧ j' = j
    · obtain ⟨hk', hj'⟩ := hc
      subst hk'
      subst hj'
      rw [mget_mxor_self _ _ _ _ (by rw [foldk_length]; omega)
        (by rw [foldk_rowlen]; exact hrows _ (by omega))]
      rw [ih m (by omega) (fun k hk => hrows k (by omega))]
      rw [if_neg (by omega), if_pos ⟨by omega, rfl⟩]
    · have hor : k' ≠ n ∨ j' ≠ j := by tauto
      rw [mget_mxor_ne _ _ _ _ _ _ hor]
      rw [ih m (by omega) (fun k hk => hrows k (by omega))]
      by_cases h1 : k' < n ∧ j' = j
      · rw [if_pos h1, if_pos ⟨by omega, h1.2⟩]
      · rw [if_neg h1, if_neg (by
          rintro ⟨ha, hb⟩
          rcases hor with h2 | h2
          · exact h1 ⟨by omega, hb⟩
          · exact h2 hb)]

theorem foldj_length (E : Nat → Nat → Nat) (kN : Nat) :
    ∀ (cN : Nat) (m : Mat),
      ((List.range cN).foldl
        (fun o j => (List.range kN).foldl (fun o2 k => mxor o2 k j (E j k)) o) m).length
        = m.length := by
  intro cN
  induction cN with
  | zero => intro m; rfl
  | succ c ih =>
    intro m
    rw [List.range_succ, List.foldl_append, List.foldl_cons, List.foldl_nil, foldk_length, ih]

theorem foldj_rowlen (E : Nat → Nat → Nat) (kN : Nat) :
    ∀ (cN : Nat) (m : Mat) (k' : Nat),
      (((List.range cN).foldl
        (fun o j => (List.range kN).foldl (fun o2 k => mxor o2 k j (E j k)) o) m).getD k' []).length
        = (m.getD k' []).length := by
  intro cN
  induction cN with
  | zero => intro m k'; rfl
  | succ c ih =>
    intro m k'
    rw [List.range_succ, List.foldl_append, List.foldl_cons, List.foldl_nil, foldk_rowlen, ih]

theorem foldj_mget (E : Nat → Nat → Nat) (kN : Nat) :
    ∀ (cN : Nat) (m : Mat), kN ≤ m.length →
      (∀ k < kN, cN ≤ (m.getD k []).length) → ∀ (k' j' : Nat),
      mget ((List.range cN).foldl
          (fun o j => (List.range kN).foldl (fun o2 k => mxor o2 k j (E j k)) o) m) k' j'
        = if k' < kN ∧ j' < cN then mget m k' j' ^^^ E j' k' else mget m k' j' := by
  intro cN
  induction cN with
  | zero =>
    intro m _ _ k' j'
    rw [if_neg (by omega)]
    rfl
  | succ c ih =>
    intro m hK hrows k' j'
    rw [List.range_succ, List.foldl_append, List.foldl_cons, List.foldl_nil]
    rw [foldk_mget c (fun k => E c k) kN _
      (by rw [foldj_length]; exact hK)
      (fun k hk => by rw [foldj_rowlen]; have := hrows k hk; omega)]
    rw [ih m hK (fun k hk => by have := hrows k hk; omega)]
    by_cases h1 : k' < kN ∧ j' = c
    · rw [if_pos h1, if_neg (by omega), if_pos ⟨h1.1, by omega⟩]
      rw [h1.2]
    · by_cases h2 : k' < kN ∧ j' < c
      · rw [if_neg h1, if_pos h2, if_pos ⟨h2.1, by omega⟩]
      · rw [if_neg h1, if_neg h2, if_neg (by
          rintro ⟨ha, hb⟩
          rcases Nat.lt_or_ge j' c with hc | hc
          · exact h2 ⟨ha, hc⟩
          · exact h1 ⟨ha, by omega⟩)]

theorem codeFold_length (p : ErasureCoder) (inp : Mat) :
    ∀ (n : Nat) (m : Mat),
      ((List.range n).foldl
        (fun out i =>
          (List.range (inp.getD i []).length).foldl
            (fun out j =>
              (List.range (p.interp.getD i []).length).foldl
                (fun out k => mxor out k j (mult (mget inp i j) ((p.interp.getD i []).getD k 0)))
                out)
            out)
        m).length = m.length := by
  intro n
  induction n with
  | zero => intro m; rfl
  | succ n ih =>
    intro m
    rw [List.range_succ, List.foldl_append, List.foldl_cons, List.foldl_nil, foldj_length, ih]

theorem codeFold_rowlen (p : ErasureCoder) (inp : Mat) :
    ∀ (n : Nat) (m : Mat) (k' : Nat),
      (((List.range n).foldl
        (fun out i =>
          (List.range (inp.getD i []).length).foldl
            (fun out j =>
              (List.range (p.interp.getD i []).length).foldl
                (fun out k => mxor out k j (mult (mget inp i j) ((p.interp.getD i []).getD k 0)))
                out)
            out)
        m).getD k' []).length = (m.getD k' []).length := by
  intro n
  induction n with
  | zero => intro m k'; rfl
  | succ n ih =>
    intro m k'
    rw [List.range_succ, List.foldl_append, List.foldl_cons, List.foldl_nil, foldj_rowlen, ih]

theorem codeFold_mget (p : ErasureCoder) (inp : Mat) (K C : Nat)
    (hrows : ∀ i < inp.length, (inp.getD i []).length = C)
    (hinterp : ∀ i < inp.length, (p.interp.getD i []).length = K) :
    ∀ (n : Nat), n ≤ inp.length → ∀ (m : Mat), Shaped m K C → ∀ (k' j' : Nat),
      mget ((List.range n).foldl
          (fun out i =>
            (List.range (inp.getD i []).length).foldl
              (fun out j =>
                (List.range (p.interp.getD i []).length).foldl
                  (fun out k => mxor out k j (mult (mget inp i j) ((p.interp.getD i []).getD k 0)))
                  out)
              out)
          m) k' j'
        = if k' < K ∧ j' < C then
            mget m k' j' ^^^
              xorSum n (fun i => mult (mget inp i j') ((p.interp.getD i []).getD k' 0))
          else mget m k' j' := by
  intro n
  induction n with
  | zero =>
    intro _ m _ k' j'
    rw [xorSum_zero]
    split
    · rw [Nat.xor_zero]
      rfl
    · rfl
  | succ n ih =>
    intro hn m hm k' j'
    rw [List.range_succ, List.foldl_append, List.foldl_cons, List.foldl_nil]
    rw [foldj_mget _ _ _ _
      (by rw [codeFold_length, hm.1, hinterp n (by omega)])
      (fun k hk => by
        rw [codeFold_rowlen, hrows n (by omega)]
        have h2 : k < K := by
          rw [hinterp n (by omega)] at hk
          exact hk
        rw [hm.2 k h2])]
    rw [ih (by omega) m hm k' j']
    rw [hinterp n (by omega), hrows n (by omega)]
    by_cases h1 : k' < K ∧ j' < C
    · rw [if_pos h1, if_pos h1, if_pos h1, xorSum_succ, Nat.xor_assoc]
    · rw [if_neg h1, if_neg h1, if_neg h1]

theorem codeAccum_mget (p : ErasureCoder) (inp : Mat) (K C : Nat)
    (hrows : ∀ i < inp.length, (inp.getD i []).length = C)
    (hinterp : ∀ i < inp.length, (p.interp.getD i []).length = K)
    (m : Mat) (hm : Shaped m K C) (k' j' : Nat) :
    mget (codeAccum p inp m) k' j'
      = if k' < K ∧ j' < C then
          mget m k' j' ^^^
            xorSum inp.length (fun i => mult (mget inp i j') ((p.interp.getD i []).getD k' 0))
        else mget m k' j' :=
  codeFold_mget p inp K C hrows hinterp inp.length (le_refl _) m hm k' j'

theorem codeAccum_shaped (p : ErasureCoder) (inp : Mat) (K C : Nat)
    (m : Mat) (hm : Shaped m K C) : Shaped (codeAccum p inp m) K C := by
  constructor
  · rw [codeAccum, codeFold_length, hm.1]
  · intro k hk
    rw [codeAccum, codeFold_rowlen]
    exact hm.2 k hk

theorem updateAccum_mget (p : ErasureCoder) (idx : Nat) (d : List Nat) (out : Mat) (K : Nat)
    (hK : (p.interp.getD idx []).length = K)
    (hlen : K ≤ out.length)
    (hrows : ∀ k < K, d.length ≤ (out.getD k []).length) (k' j' : Nat) :
    mget (updateAccum p idx d out) k' j'
      = if k' < K ∧ j' < d.length then
          mget out k' j' ^^^ mult (d.getD j' 0) ((p.interp.getD idx []).getD k' 0)
        else mget out k' j' := by
  rw [updateAccum]
  rw [foldj_mget _ _ _ _ (by rw [hK]; exact hlen) (fun k hk => by
    rw [hK] at hk
    exact hrows k hk)]
  rw [hK]

theorem updateAccum_length (p : ErasureCoder) (idx : Nat) (d : List Nat) (out : Mat) :
    (updateAccum p idx d out).length = out.length := by
  rw [updateAccum, foldj_length]

theorem updateAccum_rowlen (p : ErasureCoder) (idx : Nat) (d : List Nat) (out : Mat) (k' : Nat) :
    ((updateAccum p idx d out).getD k' []).length = (out.getD k' []).length := by
  rw [updateAccum, foldj_rowlen]

/-! ### The interpolation matrix of `NewErasureCoder` -/

theorem getD_eq_getElem {α : Type} : ∀ (l : List α) (n : Nat) (d : α) (h : n < l.length),
    l.getD n d = l[n] := by
  intro l
  induction l with
  | nil => intro n d h; simp at h
  | cons a t ih =>
    intro n d h
    cases n with
    | zero => rfl
    | succ m => simpa using ih m d (by simpa using h)

theorem getD_map {α β : Type} (f : α → β) :
    ∀ (l : List α) (k : Nat) (d : α) (d2 : β), k < l.length →
      (l.map f).getD k d2 = f (l.getD k d) := by
  intro l
  induction l with
  | nil => intro k d d2 h; simp at h
  | cons a t ih =>
    intro k d d2 h
    cases k with
    | zero => rfl
    | succ m => simpa using ih m d d2 (by simpa using h)

theorem getD_append_left {α : Type} : ∀ (l1 l2 : List α) (n : Nat) (d : α), n < l1.length →
    (l1 ++ l2).getD n d = l1.getD n d := by
  intro l1
  induction l1 with
  | nil => intro l2 n d h; simp at h
  | cons a t ih =>
    intro l2 n d h
    cases n with
    | zero => rfl
    | succ m => simpa using ih l2 m d (by simpa using h)

theorem getD_append_right2 {α : Type} : ∀ (l1 l2 : List α) (n : Nat) (d : α),
    (l1 ++ l2).getD (l1.length + n) d = l2.getD n d := by
  intro l1
  induction l1 with
  | nil => intro l2 n d; simp
  | cons a t ih =>
    intro l2 n d
    have : (a :: t).length + n = (t.length + n) + 1 := by simp; omega
    rw [this]
    simpa using ih l2 n d

theorem getD_map_range {α : Type} (f : Nat → α) :
    ∀ (N i : Nat) (d : α), i < N → ((List.range N).map f).getD i d = f i := by
  intro N
  induction N with
  | zero => intro i d h; omega
  | succ n ih =>
    intro i d h
    rw [List.range_succ, List.map_append]
    rcases Nat.lt_or_ge i n with h2 | h2
    · rw [getD_append_left _ _ _ _ (by simpa using h2)]
      exact ih i d h2
    · have hi2 : i = n := by omega
      rw [hi2]
      have h3 := getD_append_right2 (List.map f (List.range n)) (List.map f [n]) 0 d
      simpa using h3

theorem interp_length (in_x out_x : List Nat) :
    (NewErasureCoder in_x out_x).interp.length = in_x.length := by
  simp [NewErasureCoder]

theorem interp_row (in_x out_x : List Nat) (i : Nat) (hi : i < in_x.length) :
    (NewErasureCoder in_x out_x).interp.getD i [] = out_x.map fun xj => lagrange in_x i xj := by
  rw [NewErasureCoder]
  exact getD_map_range _ _ _ _ hi

theorem interp_rowlen (in_x out_x : List Nat) (i : Nat) (hi : i < in_x.length) :
    ((NewErasureCoder in_x out_x).interp.getD i []).length = out_x.length := by
  rw [interp_row in_x out_x i hi, List.length_map]

theorem interp_entry (in_x out_x : List Nat) (i k : Nat) (hi : i < in_x.length)
    (hk : k < out_x.length) :
    ((NewErasureCoder in_x out_x).interp.getD i []).getD k 0
      = lagrange in_x i (out_x.getD k 0) := by
  rw [interp_row in_x out_x i hi]
  exact getD_map _ out_x k 0 0 hk

/-! ### Values of the Lagrange factors at the input abscissae -/

theorem mem_enumFrom_spec {α : Type} (d : α) :
    ∀ (l : List α) (n : Nat) (kx : Nat × α), kx ∈ List.enumFrom n l →
      n ≤ kx.1 ∧ kx.1 - n < l.length ∧ kx.2 = l.getD (kx.1 - n) d := by
  intro l
  induction l with
  | nil => intro n kx h; simp at h
  | cons a t ih =>
    intro n kx h
    rw [List.enumFrom] at h
    rcases List.mem_cons.mp h with h1 | h1
    · subst h1
      simp
    · obtain ⟨ha, hb, hc⟩ := ih (n + 1) kx h1
      refine ⟨by omega, by simp; omega, ?_⟩
      rw [hc]
      have : kx.1 - n = (kx.1 - (n + 1)) + 1 := by omega
      rw [this]
      rfl

theorem mem_enum_spec {α : Type} (d : α) (l : List α) (kx : Nat × α) (h : kx ∈ l.enum) :
    kx.1 < l.length ∧ kx.2 = l.getD kx.1 d := by
  obtain ⟨_, hb, hc⟩ := mem_enumFrom_spec d l 0 kx h
  rw [Nat.sub_zero] at hb hc
  exact ⟨hb, hc⟩

theorem enumFrom_mem {α : Type} (d : α) :
    ∀ (l : List α) (n k : Nat), k < l.length → (n + k, l.getD k d) ∈ List.enumFrom n l := by
  intro l
  induction l with
  | nil => intro n k h; simp at h
  | cons a t ih =>
    intro n k h
    rw [List.enumFrom]
    cases k with
    | zero => simp
    | succ m =>
      refine List.mem_cons.mpr (Or.inr ?_)
      have : n + (m + 1) = (n + 1) + m := by omega
      rw [this]
      exact ih (n + 1) m (by simpa using h)

theorem enum_mem {α : Type} (d : α) (l : List α) (k : Nat) (h : k < l.length) :
    (k, l.getD k d) ∈ l.enum := by
  have := enumFrom_mem d l 0 k h
  simpa using this

theorem lagFold_zero (in_x : List Nat) (i : Nat) (xj : Nat) :
    ∀ (l : List (Nat × Nat)),
      l.foldl
        (fun r kx =>
          if kx.1 = i then r
          else mult r (mult (xj ^^^ kx.2) (invT (in_x.getD i 0 ^^^ kx.2)))) 0 = 0 := by
  intro l
  induction l with
  | nil => rfl
  | cons kx t ih =>
    rw [List.foldl_cons]
    split
    · exact ih
    · rw [mult_zero_left]
      exact ih

theorem lagFold_ones (in_x : List Nat) (i : Nat) (xj : Nat) :
    ∀ (l : List (Nat × Nat)),
      (∀ kx ∈ l, kx.1 ≠ i → mult (xj ^^^ kx.2) (invT (in_x.getD i 0 ^^^ kx.2)) = 1) →
      ∀ r, r < 256 →
      l.foldl
        (fun r kx =>
          if kx.1 = i then r
          else mult r (mult (xj ^^^ kx.2) (invT (in_x.getD i 0 ^^^ kx.2)))) r = r := by
  intro l
  induction l with
  | nil => intro _ r _; rfl
  | cons kx t ih =>
    intro hall r hr
    rw [List.foldl_cons]
    by_cases hk : kx.1 = i
    · rw [if_pos hk]
      exact ih (fun u hu => hall u (List.mem_cons.mpr (Or.inr hu))) r hr
    · rw [if_neg hk, hall kx (List.mem_cons.mpr (Or.inl rfl)) hk, mult_one r hr]
      exact ih (fun u hu => hall u (List.mem_cons.mpr (Or.inr hu))) r hr

theorem lagrange_lt (in_x : List Nat) (i xj : Nat) : lagrange in_x i xj < 256 := by
  rw [lagrange]
  have h : ∀ (l : List (Nat × Nat)) (r : Nat), r < 256 →
      l.foldl
        (fun r kx =>
          if kx.1 = i then r
          else mult r (mult (xj ^^^ kx.2) (invT (in_x.getD i 0 ^^^ kx.2)))) r < 256 := by
    intro l
    induction l with
    | nil => intro r hr; exact hr
    | cons kx t ih =>
      intro r hr
      rw [List.foldl_cons]
      split
      · exact ih r hr
      · exact ih _ (mult_lt _ _)
  exact h _ 1 (by omega)

theorem nodup_getD_ne (l : List Nat) (hnd : l.Nodup) (i k : Nat) (hi : i < l.length)
    (hk : k < l.length) (hne : i ≠ k) : l.getD i 0 ≠ l.getD k 0 := by
  rw [getD_eq_getElem l i 0 hi, getD_eq_getElem l k 0 hk]
  rcases Nat.lt_or_ge i k with h | h
  · exact (List.pairwise_iff_getElem.mp hnd) i k hi hk h
  · have h2 : k < i := by omega
    exact fun he => (List.pairwise_iff_getElem.mp hnd) k i hk hi h2 he.symm

/-- At its own abscissa, the Lagrange basis factor is 1 (distinct abscissae). -/
theorem lagrange_self (in_x : List Nat) (hnd : in_x.Nodup) (hb : ∀ a ∈ in_x, a < 256)
    (i : Nat) (hi : i < in_x.length) : lagrange in_x i (in_x.getD i 0) = 1 := by
  rw [lagrange]
  refine lagFold_ones in_x i _ in_x.enum (fun kx hkx hne => ?_) 1 (by omega)
  obtain ⟨hk1, hk2⟩ := mem_enum_spec 0 in_x kx hkx
  rw [hk2]
  have hvne : in_x.getD i 0 ≠ in_x.getD kx.1 0 := nodup_getD_ne in_x hnd i kx.1 hi hk1 (Ne.symm hne)
  have hxor : in_x.getD i 0 ^^^ in_x.getD kx.1 0 ≠ 0 := by
    intro h0
    exact hvne (Nat.xor_eq_zero.mp h0)
  have hilt : in_x.getD i 0 < 256 := by
    rw [getD_eq_getElem in_x i 0 hi]
    exact hb _ (List.getElem_mem _)
  have hklt : in_x.getD kx.1 0 < 256 := by
    rw [getD_eq_getElem in_x kx.1 0 hk1]
    exact hb _ (List.getElem_mem _)
  exact mult_inv_t _ (Nat.xor_lt_two_pow (n := 8) hilt hklt) hxor

/-- At a different input abscissa, the Lagrange factor vanishes. -/
theorem lagrange_other (in_x : List Nat) (i k : Nat) (hi : i < in_x.length)
    (hk : k < in_x.length) (hne : k ≠ i) : lagrange in_x i (in_x.getD k 0) = 0 := by
  rw [lagrange]
  obtain ⟨pre, suf, hsplit⟩ := List.append_of_mem (enum_mem 0 in_x k hk)
  rw [hsplit, List.foldl_append, List.foldl_cons, if_neg hne]
  rw [Nat.xor_self, mult_zero_left, mult_zero_right]
  exact lagFold_zero in_x i _ suf

/-! ### XOR-sum algebra -/

theorem xorSum_congr (n : Nat) (f g : Nat → Nat) (h : ∀ i < n, f i = g i) :
    xorSum n f = xorSum n g := by
  induction n with
  | zero => rfl
  | succ m ih =>
    rw [xorSum_succ, xorSum_succ, ih (fun i hi => h i (by omega)), h m (by omega)]

theorem xorSum_all_zero (n : Nat) (f : Nat → Nat) (h : ∀ i < n, f i = 0) : xorSum n f = 0 := by
  induction n with
  | zero => rfl
  | succ m ih =>
    rw [xorSum_succ, h m (by omega), Nat.xor_zero]
    exact ih (fun i hi => h i (by omega))

theorem xorSum_delta (f : Nat → Nat) : ∀ (n k : Nat), k < n → (∀ i < n, i ≠ k → f i = 0) →
    xorSum n f = f k := by
  intro n
  induction n with
  | zero => intro k hk _; omega
  | succ m ih =>
    intro k hk h
    rw [xorSum_succ]
    rcases Nat.lt_or_ge k m with h2 | h2
    · rw [ih k h2 (fun i hi hne => h i (by omega) hne), h m (by omega) (by omega), Nat.xor_zero]
    · have hkm : k = m := by omega
      rw [hkm, xorSum_all_zero m f (fun i hi => h i (by omega) (by omega)), Nat.zero_xor]

theorem xorSum_update (f g : Nat → Nat) (i0 : Nat) (e : Nat) (hat : g i0 = f i0 ^^^ e) :
    ∀ (n : Nat), i0 < n → (∀ i < n, i ≠ i0 → g i = f i) →
    xorSum n g = xorSum n f ^^^ e := by
  intro n
  induction n with
  | zero => intro h _; omega
  | succ m ih =>
    intro hi0 hsame
    rw [xorSum_succ, xorSum_succ]
    rcases Nat.lt_or_ge i0 m with h2 | h2
    · rw [ih h2 (fun i hi => hsame i (by omega)), hsame m (by omega) (by omega)]
      rw [Nat.xor_assoc, Nat.xor_assoc, Nat.xor_comm e (f m)]
    · have him : i0 = m := by omega
      have hgm : g m = f m ^^^ e := by rw [← him]; exact hat
      rw [xorSum_congr m g f (fun i hi => hsame i (by omega) (by omega)), hgm, Nat.xor_assoc]

theorem xorSum_lt (n : Nat) (f : Nat → Nat) (h : ∀ i < n, f i < 256) : xorSum n f < 256 := by
  induction n with
  | zero => rw [xorSum_zero]; omega
  | succ m ih =>
    rw [xorSum_succ]
    exact Nat.xor_lt_two_pow (n := 8) (ih (fun i hi => h i (by omega))) (h m (by omega))

theorem xorSum_three (f : Nat → Nat) : xorSum 3 f = f 0 ^^^ f 1 ^^^ f 2 := by
  rw [show (3 : Nat) = 2 + 1 from rfl, xorSum_succ, show (2 : Nat) = 1 + 1 from rfl,
    xorSum_succ, show (1 : Nat) = 0 + 1 from rfl, xorSum_succ, xorSum_zero, Nat.zero_xor]

/-! ### The success path of `Code` -/

theorem Code_ok (p : ErasureCoder) (inp : Mat)
    (h1 : inp.length = Degree p)
    (h2 : ∀ i < inp.length, (inp.getD i []).length = (inp.getD 0 []).length)
    (h3 : p.interp.length ≠ 0) :
    Code p inp
      = .ok (codeAccum p inp (makeMatrix (p.interp.getD 0 []).length (inp.getD 0 []).length)) := by
  rw [Code, if_neg (fun h => h h1), if_neg (fun h => h h2), if_neg h3]

/-- Everything `Code` guarantees on a well-shaped call of a freshly built
coder: success, output shape, and the per-entry XOR-of-products formula with
the Lagrange matrix entries. -/
theorem code_spec (x_in x_out : List Nat) (inp : Mat)
    (hpos : 0 < x_in.length)
    (hlen : inp.length = x_in.length)
    (hrag : ∀ i < inp.length, (inp.getD i []).length = (inp.getD 0 []).length) :
    ∃ out, Code (NewErasureCoder x_in x_out) inp = .ok out ∧
      Shaped out x_out.length (inp.getD 0 []).length ∧
      (∀ k j, k < x_out.length → j < (inp.getD 0 []).length →
        mget out k j
          = xorSum x_in.length
              (fun i => mult (mget inp i j) (lagrange x_in i (x_out.getD k 0)))) := by
  set p := NewErasureCoder x_in x_out with hp
  have hil : p.interp.length = x_in.length := interp_length x_in x_out
  have hK0 : (p.interp.getD 0 []).length = x_out.length := interp_rowlen x_in x_out 0 hpos
  have hinterp : ∀ i < inp.length, (p.interp.getD i []).length = x_out.length := by
    intro i hi
    exact interp_rowlen x_in x_out i (by omega)
  have hok := Code_ok p inp (by rw [Degree, hil, hlen]) hrag (by omega)
  have hm0 : Shaped (makeMatrix (p.interp.getD 0 []).length (inp.getD 0 []).length)
      x_out.length (inp.getD 0 []).length := by
    rw [hK0]
    exact makeMatrix_shaped _ _
  refine ⟨_, hok, codeAccum_shaped p inp _ _ _ hm0, fun k j hk hj => ?_⟩
  rw [codeAccum_mget p inp x_out.length (inp.getD 0 []).length hrag hinterp _ hm0 k j,
    if_pos ⟨hk, hj⟩, mget_makeMatrix, Nat.zero_xor, hlen]
  refine xorSum_congr _ _ _ (fun i hi => ?_)
  rw [interp_entry x_in x_out i k (by omega) hk]

/-- C1: For every coder built from input abscissae `x_in` and output abscissae
`x_out` (at least one input), and every well-shaped input matrix
(`len(in) == degree`, all rows the length of row 0), `Code` returns a fresh
matrix of `numOutputs = len(x_out)` rows, each of length `len(in[0])`, whose
entry `out[k][j]` is the XOR over all `i` of `mult(in[i][j], M[i][k])`, where
`M[i][k]` is the Lagrange basis value `lagrange x_in i (x_out[k])` computed at
coder-construction time. -/
theorem c1_code_correct (x_in x_out : List Nat) (inp : Mat)
    (hpos : 0 < x_in.length)
    (hlen : inp.length = x_in.length)
    (hrag : ∀ i < inp.length, (inp.getD i []).length = (inp.getD 0 []).length) :
    ∃ out, Code (NewErasureCoder x_in x_out) inp = .ok out ∧
      out.length = x_out.length ∧
      (∀ k, k < x_out.length → (out.getD k []).length = (inp.getD 0 []).length) ∧
      (∀ i k, i < x_in.length → k < x_out.length →
        ((NewErasureCoder x_in x_out).interp.getD i []).getD k 0
          = lagrange x_in i (x_out.getD k 0)) ∧
      (∀ k j, k < x_out.length → j < (inp.getD 0 []).length →
        mget out k j
          = xorSum x_in.length
              (fun i => mult (mget inp i j)
                (((NewErasureCoder x_in x_out).interp.getD i []).getD k 0))) := by
  obtain ⟨out, hok, hsh, hent⟩ := code_spec x_in x_out inp hpos hlen hrag
  refine ⟨out, hok, hsh.1, fun k hk => hsh.2 k hk,
    fun i k hi hk => interp_entry x_in x_out i k hi hk, fun k j hk hj => ?_⟩
  rw [hent k j hk hj]
  refine xorSum_congr _ _ _ (fun i hi => ?_)
  rw [interp_entry x_in x_out i k hi hk]

/-- Witness for C1 at the concrete test vectors of the repository. -/
theorem c1_code_correct_witness :
    (0 < ([0, 1, 2] : List Nat).length) ∧
    (([[1, 2, 3, 4, 5], [41, 42, 43, 44, 45], [11, 22, 33, 44, 55]] : Mat).length
      = ([0, 1, 2] : List Nat).length) ∧
    (∀ i < ([[1, 2, 3, 4, 5], [41, 42, 43, 44, 45], [11, 22, 33, 44, 55]] : Mat).length,
      ((([[1, 2, 3, 4, 5], [41, 42, 43, 44, 45], [11, 22, 33, 44, 55]] : Mat).getD i []).length
        = (([[1, 2, 3, 4, 5], [41, 42, 43, 44, 45], [11, 22, 33, 44, 55]] : Mat).getD 0 []).length)) ∧
    (∃ out,
      Code (NewErasureCoder [0, 1, 2] [0, 1, 2, 3, 4])
          [[1, 2, 3, 4, 5], [41, 42, 43, 44, 45], [11, 22, 33, 44, 55]] = .ok out ∧
      out.length = ([0, 1, 2, 3, 4] : List Nat).length ∧
      (∀ k, k < ([0, 1, 2, 3, 4] : List Nat).length →
        (out.getD k []).length
          = (([[1, 2, 3, 4, 5], [41, 42, 43, 44, 45], [11, 22, 33, 44, 55]] : Mat).getD 0 []).length) ∧
      (∀ i k, i < ([0, 1, 2] : List Nat).length → k < ([0, 1, 2, 3, 4] : List Nat).length →
        ((NewErasureCoder [0, 1, 2] [0, 1, 2, 3, 4]).interp.getD i []).getD k 0
          = lagrange [0, 1, 2] i (([0, 1, 2, 3, 4] : List Nat).getD k 0)) ∧
      (∀ k j, k < ([0, 1, 2, 3, 4] : List Nat).length →
        j < (([[1, 2, 3, 4, 5], [41, 42, 43, 44, 45], [11, 22, 33, 44, 55]] : Mat).getD 0 []).length →
        mget out k j
          = xorSum ([0, 1, 2] : List Nat).length
              (fun i =>
                mult (mget ([[1, 2, 3, 4, 5], [41, 42, 43, 44, 45], [11, 22, 33, 44, 55]] : Mat) i j)
                  (((NewErasureCoder [0, 1, 2] [0, 1, 2, 3, 4]).interp.getD i []).getD k 0)))) :=
  ⟨by decide, by decide, by decide,
    c1_code_correct [0, 1, 2] [0, 1, 2, 3, 4]
      [[1, 2, 3, 4, 5], [41, 42, 43, 44, 45], [11, 22, 33, 44, 55]]
      (by decide) (by decide) (by decide)⟩

/-! ### Matrix extensionality and the systematic identity -/

theorem getD_take {α : Type} : ∀ (l : List α) (n k : Nat) (d : α), k < n →
    (l.take n).getD k d = l.getD k d := by
  intro l
  induction l with
  | nil => intro n k d _; simp
  | cons a t ih =>
    intro n k d h
    cases n with
    | zero => omega
    | succ m =>
      rw [List.take_succ_cons]
      cases k with
      | zero => rfl
      | succ k2 => simpa using ih m k2 d (by omega)

theorem mat_ext : ∀ (m1 m2 : Mat) (r c : Nat), Shaped m1 r c → Shaped m2 r c →
    (∀ k j, k < r → j < c → mget m1 k j = mget m2 k j) → m1 = m2 := by
  intro m1 m2 r c h1 h2 he
  apply List.ext_getElem (by rw [h1.1, h2.1])
  intro k hk1 hk2
  have hkr : k < r := by rw [h1.1] at hk1; exact hk1
  have e1 : m1[k] = m1.getD k [] := (getD_eq_getElem m1 k [] hk1).symm
  have e2 : m2[k] = m2.getD k [] := (getD_eq_getElem m2 k [] hk2).symm
  apply List.ext_getElem
  · rw [e1, e2, h1.2 k hkr, h2.2 k hkr]
  · intro j hj1 hj2
    have hb1 : j < (m1.getD k []).length := by rw [e1] at hj1; exact hj1
    have hb2 : j < (m2.getD k []).length := by rw [e2] at hj2; exact hj2
    have hjc : j < c := by rw [h1.2 k hkr] at hb1; exact hb1
    have hval := he k j hkr hjc
    rw [mget, mget] at hval
    calc m1[k][j] = (m1[k]).getD j 0 := (getD_eq_getElem (m1[k]) j 0 hj1).symm
      _ = (m1.getD k []).getD j 0 := by rw [e1]
      _ = (m2.getD k []).getD j 0 := hval
      _ = (m2[k]).getD j 0 := by rw [e2]
      _ = m2[k][j] := getD_eq_getElem (m2[k]) j 0 hj2

theorem mget_lt_of_bytes (m : Mat) (hbr : ∀ r ∈ m, ∀ b ∈ r, b < 256) (k j : Nat)
    (hk : k < m.length) (hj : j < (m.getD k []).length) : mget m k j < 256 := by
  have hrow : m.getD k [] ∈ m := by
    rw [getD_eq_getElem m k [] hk]
    exact List.getElem_mem _
  have hent : (m.getD k []).getD j 0 ∈ m.getD k [] := by
    rw [getD_eq_getElem _ j 0 hj]
    exact List.getElem_mem _
  exact hbr _ hrow _ hent

/-- C2: for a coder built with pairwise-distinct byte input abscissae and
output abscissae whose first `degree()` entries equal the input abscissae in
order, and any well-shaped byte input matrix, the first `degree()` rows of
`Code`'s output are byte-identical to the input rows. -/
theorem c2_systematic (x_in x_out : List Nat) (inp : Mat)
    (hnd : x_in.Nodup) (hbx : ∀ a ∈ x_in, a < 256)
    (hpos : 0 < x_in.length)
    (htake : x_out.take x_in.length = x_in)
    (hlen : inp.length = x_in.length)
    (hrag : ∀ i < inp.length, (inp.getD i []).length = (inp.getD 0 []).length)
    (hbr : ∀ r ∈ inp, ∀ b ∈ r, b < 256) :
    ∃ out, Code (NewErasureCoder x_in x_out) inp = .ok out ∧
      out.take x_in.length = inp := by
  obtain ⟨out, hok, hsh, hent⟩ := code_spec x_in x_out inp hpos hlen hrag
  set d := x_in.length with hd
  set C := (inp.getD 0 []).length with hC
  have hdle : d ≤ x_out.length := by
    have := congrArg List.length htake
    rw [List.length_take] at this
    omega
  refine ⟨out, hok, ?_⟩
  have hsh1 : Shaped (out.take d) d C := by
    refine ⟨by rw [List.length_take, hsh.1]; omega, fun k hk => ?_⟩
    rw [getD_take _ _ _ _ hk]
    exact hsh.2 k (by omega)
  have hsh2 : Shaped inp d C := ⟨hlen, fun k hk => hrag k (by omega)⟩
  refine mat_ext _ _ d C hsh1 hsh2 (fun k j hk hj => ?_)
  rw [mget, getD_take _ _ _ _ hk, ← mget]
  rw [hent k j (by omega) hj]
  have hxk : x_out.getD k 0 = x_in.getD k 0 := by
    rw [← htake]
    exact (getD_take x_out d k 0 hk).symm
  rw [hxk]
  rw [xorSum_delta _ d k hk (fun i hi hne => by
    rw [lagrange_other x_in i k hi (by omega) (fun he => hne (he.symm ▸ rfl))]
    · exact mult_zero_right _
    )]
  rw [lagrange_self x_in hnd hbx k (by omega)]
  exact mult_one _ (mget_lt_of_bytes inp hbr k j (by omega) (by rw [hrag k (by omega)]; exact hj))

/-- Witness for C2: the systematic prefix property at the repository's test
vectors. -/
theorem c2_systematic_witness :
    (([0, 1, 2] : List Nat).Nodup) ∧
    (([0, 1, 2, 3, 4] : List Nat).take ([0, 1, 2] : List Nat).length = [0, 1, 2]) ∧
    (∃ out,
      Code (NewErasureCoder [0, 1, 2] [0, 1, 2, 3, 4])
          [[1, 2, 3, 4, 5], [41, 42, 43, 44, 45], [11, 22, 33, 44, 55]] = .ok out ∧
      out.take ([0, 1, 2] : List Nat).length
        = [[1, 2, 3, 4, 5], [41, 42, 43, 44, 45], [11, 22, 33, 44, 55]]) :=
  ⟨by decide, by decide,
    c2_systematic [0, 1, 2] [0, 1, 2, 3, 4]
      [[1, 2, 3, 4, 5], [41, 42, 43, 44, 45], [11, 22, 33, 44, 55]]
      (by decide) (by decide) (by decide) (by decide) (by decide) (by decide) (by decide)⟩

/-! ### Degenerate constructions: duplicate abscissae and empty abscissa lists -/

/-- C5 counterexample: building a coder from the colliding input abscissae
`[0, 0]` does not fail at all -- it silently returns the zero coefficient
matrix (the claimed hard failure does not happen; `inv[0]` is simply 0). -/
theorem c5_counterexample :
    (NewErasureCoder [0, 0] [1]).interp = [[0], [0]] ∧ invT 0 = 0 := by
  constructor
  · rfl
  · rfl

/-- C5 amended: when two input abscissae collide, `lagrange` reads
`inv[x ^ x] = inv[0] = 0`, so matrix construction silently succeeds and every
coefficient is 0 -- a silently degenerate matrix, not a hard failure. -/
theorem c5_amended (x y : Nat) : (NewErasureCoder [x, x] [y]).interp = [[0], [0]] := by
  have h0 : lagrange [x, x] 0 y = 0 := by
    show List.foldl _ 1 [(0, x), (1, x)] = 0
    rw [List.foldl_cons, List.foldl_cons, List.foldl_nil]
    rw [if_neg (by simp), if_pos rfl]
    show mult 1 (mult (y ^^^ x) (invT (x ^^^ x))) = 0
    rw [Nat.xor_self, show invT 0 = 0 from rfl, mult_zero_right, mult_zero_right]
  have h1 : lagrange [x, x] 1 y = 0 := by
    show List.foldl _ 1 [(0, x), (1, x)] = 0
    rw [List.foldl_cons, List.foldl_cons, List.foldl_nil]
    rw [if_pos rfl, if_neg (by simp)]
    show mult 1 (mult (y ^^^ x) (invT (x ^^^ x))) = 0
    rw [Nat.xor_self, show invT 0 = 0 from rfl, mult_zero_right, mult_zero_right]
  show [[lagrange [x, x] 0 y], [lagrange [x, x] 1 y]] = [[0], [0]]
  rw [h0, h1]

/-- C6 counterexample: `NewErasureCoder` does not fail on empty abscissa
sequences. With an empty output list (and a nonempty input list) it returns a
perfectly usable coder whose `Code` succeeds with an empty output; with empty
inputs it still returns a coder value (with an empty matrix). -/
theorem c6_counterexample :
    Code (NewErasureCoder [0] []) [[5]] = .ok [] ∧
    NumOutputs (NewErasureCoder [0] []) = some 0 ∧
    (NewErasureCoder [] []).interp = [] := by
  refine ⟨by rfl, by rfl, by rfl⟩

/-- C6 amended: construction is total and never fails by itself.  A coder
built from empty input abscissae fails only later: `NumOutputs` hits the
`p.interp[0]` index panic (modelled as `none`) and `Code` hits the same panic.
A coder built from empty output abscissae (nonempty inputs) is usable:
`Code` succeeds and returns the empty output matrix. -/
theorem c6_amended (out_x x_in : List Nat) (inp : Mat)
    (hpos : 0 < x_in.length) (hlen : inp.length = x_in.length)
    (hrag : ∀ i < inp.length, (inp.getD i []).length = (inp.getD 0 []).length) :
    NumOutputs (NewErasureCoder [] out_x) = none ∧
    Code (NewErasureCoder [] out_x) [] = .error .indexPanic ∧
    Code (NewErasureCoder x_in []) inp = .ok [] := by
  refine ⟨?_, ?_, ?_⟩
  · rfl
  · rfl
  · obtain ⟨out, hok, hsh, _⟩ := code_spec x_in [] inp hpos hlen hrag
    have hnil : out = [] := List.length_eq_zero.mp hsh.1
    rw [← hnil]
    exact hok

/-- Witness for the amended C6. -/
theorem c6_amended_witness :
    (0 < ([9] : List Nat).length) ∧
    (NumOutputs (NewErasureCoder [] [7]) = none ∧
     Code (NewErasureCoder [] [7]) [] = .error .indexPanic ∧
     Code (NewErasureCoder [9] []) [[5, 6]] = .ok []) :=
  ⟨by decide, c6_amended [7] [9] [[5, 6]] (by decide) (by decide) (by decide)⟩

/-- C9 counterexample: at `a = 1` (where `log[1] = 0`) the stored inverse
`inv[1] = 1` does not equal `exp[255 - log[1]] = exp[255]` -- that index is
out of range for the 255-entry `exp` table (the embedded lookup defaults
to 0). -/
theorem c9_counterexample : invT 1 ≠ expT (255 - logT 1) := by
  have hl1 : logT 1 = 0 := by rw [logT_eq 1 (by omega), pLogOne]
  rw [hl1, Nat.sub_zero, expT_oob 255 (le_refl _)]
  intro h
  simp [invT] at h

/-- C9 amended: the defining formula `inv[a] = exp[255 - log[a]]` holds
exactly for `a` in 2..255 (where the `init` loop applies it); `inv[1]` is set
to 1 by a special case, and at `a = 1` the formula would index `exp[255]`,
one past the end of the 255-entry table. -/
theorem c9_amended :
    (∀ a, 2 ≤ a → a < 256 → invT a = expT (255 - logT a)) ∧
    invT 1 = 1 ∧ logT 1 = 0 ∧ expList.length = 255 ∧ expT 255 = 0 := by
  refine ⟨fun a h2 h256 => ?_, by simp [invT], ?_, expFrom_length 255 1,
    expT_oob 255 (le_refl _)⟩
  · rw [invT, if_neg (by omega), if_neg (by omega)]
  · rw [logT_eq 1 (by omega), pLogOne]

/-- Witness for the amended C9 at `a = 5`. -/
theorem c9_amended_witness :
    ((2 ≤ 5 ∧ 5 < 256) ∧ invT 5 = expT (255 - logT 5)) ∧ invT 1 = 1 :=
  ⟨⟨by omega, c9_amended.1 5 (by omega) (by omega)⟩, c9_amended.2.1⟩

/-- C10: for a coder of degree exactly 256 (e.g. all 256 distinct byte values
as input abscissae), the `Update` guard compares `idx` against
`uint8(256) = 0`, so every `Update` call fails with the index-out-of-range
fault, for every uint8 index, even though every such index is a valid input
row index. -/
theorem c10_degree256_update (x_in out_x : List Nat)
    (h256 : x_in.length = 256) (hnd : x_in.Nodup)
    (idx : Nat) (hidx : idx < 256) (d : List Nat) (out : Mat) :
    Update (NewErasureCoder x_in out_x) idx d out = .error .indexOutOfRange := by
  rw [Update, if_pos]
  rw [Degree, interp_length, h256]
  omega

/-- Witness for C10 with the 256 distinct byte abscissae `0..255`. -/
theorem c10_degree256_update_witness :
    ((List.range 256).length = 256 ∧ (List.range 256).Nodup ∧ (0 : Nat) < 256) ∧
    Update (NewErasureCoder (List.range 256) [0]) 0 [] [[]] = .error .indexOutOfRange :=
  ⟨⟨by simp, List.nodup_range 256, by omega⟩,
    c10_degree256_update (List.range 256) [0] (by simp) (List.nodup_range 256) 0 (by omega) [] [[]]⟩

/-! ### Field sanity (C8) and the validation taxonomy (C7) -/

/-- C8: field sanity: `mult a (inv a) = 1` and `exp[log a] = a` for every
nonzero byte `a`; multiplication by zero gives zero on both sides;
multiplication is commutative; and it distributes over XOR on bytes. -/
theorem c8_field_sanity :
    (∀ a, 0 < a → a < 256 → mult a (invT a) = 1 ∧ expT (logT a) = a) ∧
    (∀ a, mult a 0 = 0 ∧ mult 0 a = 0) ∧
    (∀ a b, mult a b = mult b a) ∧
    (∀ a b c, a < 256 → b < 256 → c < 256 → mult a (b ^^^ c) = mult a b ^^^ mult a c) := by
  refine ⟨fun a h0 h256 => ⟨mult_inv_t a h256 (by omega), ?_⟩,
    fun a => ⟨mult_zero_right a, mult_zero_left a⟩, mult_comm_t, mult_distrib_t⟩
  rw [logT_eq a h256, expT_eq _ (pLogLT a h256)]
  exact pExpLog a h256 (by omega)

/-- Witness for C8 at sample field elements. -/
theorem c8_field_sanity_witness :
    ((0 < 7 ∧ 7 < 256) ∧ mult 7 (invT 7) = 1 ∧ expT (logT 7) = 7) ∧
    (mult 9 0 = 0 ∧ mult 0 9 = 0) ∧
    (mult 3 5 = mult 5 3) ∧
    ((3 < 256 ∧ 5 < 256 ∧ 6 < 256) ∧ mult 3 (5 ^^^ 6) = mult 3 5 ^^^ mult 3 6) :=
  ⟨⟨⟨by omega, by omega⟩, c8_field_sanity.1 7 (by omega) (by omega)⟩,
   c8_field_sanity.2.1 9, c8_field_sanity.2.2.1 3 5,
   ⟨⟨by omega, by omega, by omega⟩,
     c8_field_sanity.2.2.2 3 5 6 (by omega) (by omega) (by omega)⟩⟩

/-- C7 counterexample: the `Update` index guard truncates the degree to
uint8.  On a degree-257 coder, `Update` with index 1 fails with the
index-out-of-range fault even though `1 < degree` -- refuting "fails with
IndexOutOfRange exactly when the index is ≥ degree()". -/
theorem c7_counterexample :
    Update (NewErasureCoder (List.replicate 257 0) [0]) 1 [] [[]]
        = .error .indexOutOfRange ∧
    (1 : Nat) < Degree (NewErasureCoder (List.replicate 257 0) [0]) := by
  constructor
  · rw [Update, if_pos]
    rw [Degree, interp_length]
    simp
  · rw [Degree, interp_length]
    simp

/-- C7 amended: the raise-iff characterization of the validation checks, with
the `Update` index guard stated against the uint8-truncated degree
(`degree mod 256`); for coders of degree ≤ 255 this is exactly
`idx ≥ degree`.  Faults abort before any output is produced. -/
theorem c7_amended (p : ErasureCoder) (inp : Mat) (idx : Nat) (d : List Nat) (out : Mat) :
    (Code p inp = .error .shapeMismatch ↔ inp.length ≠ Degree p) ∧
    (Code p inp = .error .raggedInput ↔
      (inp.length = Degree p ∧
        ¬ ∀ i < inp.length, (inp.getD i []).length = (inp.getD 0 []).length)) ∧
    (Update p idx d out = .error .indexOutOfRange ↔ Degree p % 256 ≤ idx) ∧
    (Update p idx d out = .error .shapeMismatch ↔
      (idx < Degree p % 256 ∧ out.length ≠ (p.interp.getD 0 []).length)) ∧
    (Update p idx d out = .error .raggedInput ↔
      (idx < Degree p % 256 ∧ out.length = (p.interp.getD 0 []).length ∧
        ¬ ∀ i < out.length, d.length = (out.getD i []).length)) := by
  refine ⟨?_, ?_, ?_, ?_, ?_⟩
  · rw [Code]
    split_ifs with h1 h2 h3 <;> simp_all
  · rw [Code]
    split_ifs with h1 h2 h3 <;> simp_all
  · rw [Update]
    split_ifs with h1 h2 h3
    · exact iff_of_true rfl h1
    · exact iff_of_false (by simp) h1
    · exact iff_of_false (by simp) h1
    · exact iff_of_false (by simp) h1
  · rw [Update]
    split_ifs with h1 h2 h3
    · exact iff_of_false (by simp) (fun h => absurd h.1 (by omega))
    · exact iff_of_true rfl ⟨by omega, h2⟩
    · exact iff_of_false (by simp) (fun h => h2 h.2)
    · exact iff_of_false (by simp) (fun h => h2 h.2)
  · rw [Update]
    split_ifs with h1 h2 h3
    · exact iff_of_false (by simp) (fun h => absurd h.1 (by omega))
    · exact iff_of_false (by simp) (fun h => h2 h.2.1)
    · exact iff_of_false (by simp) (fun h => h.2.2 h3)
    · exact iff_of_true rfl ⟨by omega, by omega, h3⟩

/-- Witness for the amended C7 on a concrete mis-shaped call. -/
theorem c7_amended_witness :
    (Code (NewErasureCoder [0, 1] [0]) [[1]] = .error .shapeMismatch ↔
      ([[1]] : Mat).length ≠ Degree (NewErasureCoder [0, 1] [0])) ∧
    ([[1]] : Mat).length ≠ Degree (NewErasureCoder [0, 1] [0]) :=
  ⟨(c7_amended (NewErasureCoder [0, 1] [0]) [[1]] 0 [] [[]]).1, by decide⟩

/-! ### Round-trip recovery: the algebra at three input nodes -/

theorem GF.val_mk (v : Nat) (h : v < 256) : (GF.mk v h).val = v := rfl

theorem GF.add_ne_zero (a b : GF) (h : a.val ≠ b.val) : a + b ≠ 0 := by
  intro hEq
  have h2 : a.val ^^^ b.val = 0 := congrArg GF.val hEq
  exact h (Nat.xor_eq_zero.mp h2)

theorem lagrange3_0 (x0 x1 x2 w : Nat) :
    lagrange [x0, x1, x2] 0 w
      = mult (mult 1 (mult (w ^^^ x1) (invT (x0 ^^^ x1)))) (mult (w ^^^ x2) (invT (x0 ^^^ x2))) := rfl

theorem lagrange3_1 (x0 x1 x2 w : Nat) :
    lagrange [x0, x1, x2] 1 w
      = mult (mult 1 (mult (w ^^^ x0) (invT (x1 ^^^ x0)))) (mult (w ^^^ x2) (invT (x1 ^^^ x2))) := rfl

theorem lagrange3_2 (x0 x1 x2 w : Nat) :
    lagrange [x0, x1, x2] 2 w
      = mult (mult 1 (mult (w ^^^ x0) (invT (x2 ^^^ x0)))) (mult (w ^^^ x1) (invT (x2 ^^^ x1))) := rfl

/-- Recovery identity in `GF`: re-interpolating the values of the degree-<3
interpolant from three distinct sample nodes `W0 W1 W2` and evaluating at any
point recovers the original interpolant's value there.  (In GF(2^8),
subtraction is `+`.) -/
theorem gf_rec (X0 X1 X2 W0 W1 W2 Zg R0 R1 R2 : GF)
    (hw01 : W0 + W1 ≠ 0) (hw02 : W0 + W2 ≠ 0) (hw12 : W1 + W2 ≠ 0) :
    (R0 * (1 * ((W0 + X1) * (X0 + X1)⁻¹) * ((W0 + X2) * (X0 + X2)⁻¹))
        + R1 * (1 * ((W0 + X0) * (X1 + X0)⁻¹) * ((W0 + X2) * (X1 + X2)⁻¹))
        + R2 * (1 * ((W0 + X0) * (X2 + X0)⁻¹) * ((W0 + X1) * (X2 + X1)⁻¹)))
      * (1 * ((Zg + W1) * (W0 + W1)⁻¹) * ((Zg + W2) * (W0 + W2)⁻¹))
    + (R0 * (1 * ((W1 + X1) * (X0 + X1)⁻¹) * ((W1 + X2) * (X0 + X2)⁻¹))
        + R1 * (1 * ((W1 + X0) * (X1 + X0)⁻¹) * ((W1 + X2) * (X1 + X2)⁻¹))
        + R2 * (1 * ((W1 + X0) * (X2 + X0)⁻¹) * ((W1 + X1) * (X2 + X1)⁻¹)))
      * (1 * ((Zg + W0) * (W1 + W0)⁻¹) * ((Zg + W2) * (W1 + W2)⁻¹))
    + (R0 * (1 * ((W2 + X1) * (X0 + X1)⁻¹) * ((W2 + X2) * (X0 + X2)⁻¹))
        + R1 * (1 * ((W2 + X0) * (X1 + X0)⁻¹) * ((W2 + X2) * (X1 + X2)⁻¹))
        + R2 * (1 * ((W2 + X0) * (X2 + X0)⁻¹) * ((W2 + X1) * (X2 + X1)⁻¹)))
      * (1 * ((Zg + W0) * (W2 + W0)⁻¹) * ((Zg + W1) * (W2 + W1)⁻¹))
    = R0 * (1 * ((Zg + X1) * (X0 + X1)⁻¹) * ((Zg + X2) * (X0 + X2)⁻¹))
    + R1 * (1 * ((Zg + X0) * (X1 + X0)⁻¹) * ((Zg + X2) * (X1 + X2)⁻¹))
    + R2 * (1 * ((Zg + X0) * (X2 + X0)⁻¹) * ((Zg + X1) * (X2 + X1)⁻¹)) := by
  have g01 : W0 - W1 ≠ 0 := by rw [GF.sub_eq]; exact hw01
  have g02 : W0 - W2 ≠ 0 := by rw [GF.sub_eq]; exact hw02
  have g12 : W1 - W2 ≠ 0 := by rw [GF.sub_eq]; exact hw12
  have e0 := lag3 X1 X2 W0 W1 W2 Zg g01 g02 g12
  have e1 := lag3 X0 X2 W0 W1 W2 Zg g01 g02 g12
  have e2 := lag3 X0 X1 W0 W1 W2 Zg g01 g02 g12
  simp only [GF.sub_eq] at e0 e1 e2
  linear_combination (R0 * ((X0 + X1)⁻¹ * (X0 + X2)⁻¹)) * e0
    + (R1 * ((X1 + X0)⁻¹ * (X1 + X2)⁻¹)) * e1
    + (R2 * ((X2 + X0)⁻¹ * (X2 + X1)⁻¹)) * e2

/-- The recovery identity for the byte-level `mult`/`invT`/XOR operations. -/
theorem nat_recovery (x0 x1 x2 w0 w1 w2 z v0 v1 v2 : Nat)
    (hx0 : x0 < 256) (hx1 : x1 < 256) (hx2 : x2 < 256)
    (hw0 : w0 < 256) (hw1 : w1 < 256) (hw2 : w2 < 256) (hz : z < 256)
    (hv0 : v0 < 256) (hv1 : v1 < 256) (hv2 : v2 < 256)
    (hw01 : w0 ≠ w1) (hw02 : w0 ≠ w2) (hw12 : w1 ≠ w2) :
    mult (mult v0 (lagrange [x0, x1, x2] 0 w0) ^^^ mult v1 (lagrange [x0, x1, x2] 1 w0)
        ^^^ mult v2 (lagrange [x0, x1, x2] 2 w0)) (lagrange [w0, w1, w2] 0 z)
    ^^^ mult (mult v0 (lagrange [x0, x1, x2] 0 w1) ^^^ mult v1 (lagrange [x0, x1, x2] 1 w1)
        ^^^ mult v2 (lagrange [x0, x1, x2] 2 w1)) (lagrange [w0, w1, w2] 1 z)
    ^^^ mult (mult v0 (lagrange [x0, x1, x2] 0 w2) ^^^ mult v1 (lagrange [x0, x1, x2] 1 w2)
        ^^^ mult v2 (lagrange [x0, x1, x2] 2 w2)) (lagrange [w0, w1, w2] 2 z)
    = mult v0 (lagrange [x0, x1, x2] 0 z) ^^^ mult v1 (lagrange [x0, x1, x2] 1 z)
      ^^^ mult v2 (lagrange [x0, x1, x2] 2 z) := by
  simp only [lagrange3_0, lagrange3_1, lagrange3_2]
  have h := gf_rec ⟨x0, hx0⟩ ⟨x1, hx1⟩ ⟨x2, hx2⟩ ⟨w0, hw0⟩ ⟨w1, hw1⟩ ⟨w2, hw2⟩ ⟨z, hz⟩
    ⟨v0, hv0⟩ ⟨v1, hv1⟩ ⟨v2, hv2⟩
    (GF.add_ne_zero _ _ hw01) (GF.add_ne_zero _ _ hw02) (GF.add_ne_zero _ _ hw12)
  have h2 := congrArg GF.val h
  simp only [GF.val_add, GF.val_mul, GF.val_inv, GF.val_one, GF.val_mk] at h2
  exact h2

theorem xorSum_list3 (x y z : Nat) (f : Nat → Nat) :
    xorSum ([x, y, z] : List Nat).length f = f 0 ^^^ f 1 ^^^ f 2 := xorSum_three f

/-- One column of the recovery argument: re-encoding three sample rows of a
degree-3 coder's output through a coder built on the sampled abscissae
reproduces the output row of any of the five abscissae. -/
theorem recov_col (a0 a1 a2 a3 a4 : Nat) (inp outA : Mat) (s0 s1 s2 mu j : Nat)
    (hb : ∀ a ∈ ([a0, a1, a2, a3, a4] : List Nat), a < 256)
    (hnd : ([a0, a1, a2, a3, a4] : List Nat).Nodup)
    (hlen : inp.length = 3)
    (hrag : ∀ i < inp.length, (inp.getD i []).length = (inp.getD 0 []).length)
    (hbr : ∀ r ∈ inp, ∀ b ∈ r, b < 256)
    (hs0 : s0 < 5) (hs1 : s1 < 5) (hs2 : s2 < 5) (hmu : mu < 5)
    (h01 : s0 ≠ s1) (h02 : s0 ≠ s2) (h12 : s1 ≠ s2)
    (hj : j < (inp.getD 0 []).length)
    (hent : ∀ k j2, k < ([a0, a1, a2, a3, a4] : List Nat).length →
      j2 < (inp.getD 0 []).length →
      mget outA k j2 = xorSum ([a0, a1, a2] : List Nat).length
        (fun i => mult (mget inp i j2)
          (lagrange [a0, a1, a2] i (([a0, a1, a2, a3, a4] : List Nat).getD k 0)))) :
    mult (mget outA s0 j)
        (lagrange [([a0, a1, a2, a3, a4] : List Nat).getD s0 0,
            ([a0, a1, a2, a3, a4] : List Nat).getD s1 0,
            ([a0, a1, a2, a3, a4] : List Nat).getD s2 0] 0
          (([a0, a1, a2, a3, a4] : List Nat).getD mu 0))
    ^^^ mult (mget outA s1 j)
        (lagrange [([a0, a1, a2, a3, a4] : List Nat).getD s0 0,
            ([a0, a1, a2, a3, a4] : List Nat).getD s1 0,
            ([a0, a1, a2, a3, a4] : List Nat).getD s2 0] 1
          (([a0, a1, a2, a3, a4] : List Nat).getD mu 0))
    ^^^ mult (mget outA s2 j)
        (lagrange [([a0, a1, a2, a3, a4] : List Nat).getD s0 0,
            ([a0, a1, a2, a3, a4] : List Nat).getD s1 0,
            ([a0, a1, a2, a3, a4] : List Nat).getD s2 0] 2
          (([a0, a1, a2, a3, a4] : List Nat).getD mu 0))
    = mget outA mu j := by
  have hY : ∀ t, t < 5 → ([a0, a1, a2, a3, a4] : List Nat).getD t 0 < 256 := by
    intro t ht
    rw [getD_eq_getElem ([a0, a1, a2, a3, a4] : List Nat) t 0 ht]
    exact hb _ (List.getElem_mem _)
  have hv : ∀ t, t < 3 → mget inp t j < 256 := by
    intro t ht
    exact mget_lt_of_bytes inp hbr t j (by omega) (by rw [hrag t (by omega)]; exact hj)
  rw [hent s0 j hs0 hj, hent s1 j hs1 hj, hent s2 j hs2 hj, hent mu j hmu hj]
  simp only [xorSum_list3]
  exact nat_recovery a0 a1 a2 _ _ _ _ _ _ _
    (hb a0 (by simp)) (hb a1 (by simp)) (hb a2 (by simp))
    (hY s0 hs0) (hY s1 hs1) (hY s2 hs2) (hY mu hmu)
    (hv 0 (by omega)) (hv 1 (by omega)) (hv 2 (by omega))
    (nodup_getD_ne _ hnd s0 s1 hs0 hs1 h01)
    (nodup_getD_ne _ hnd s0 s2 hs0 hs2 h02)
    (nodup_getD_ne _ hnd s1 s2 hs1 hs2 h12)

/-- C3: a coder over distinct byte abscissae `a0..a4` with inputs at
`a0,a1,a2` computes five output rows; feeding any three of those rows, via a
coder built on their abscissae with the remaining abscissae as outputs,
reproduces the other output rows exactly. -/
theorem c3_round_trip (a0 a1 a2 a3 a4 : Nat) (inp : Mat) (s0 s1 s2 m0 m1 : Nat)
    (hb : ∀ a ∈ ([a0, a1, a2, a3, a4] : List Nat), a < 256)
    (hnd : ([a0, a1, a2, a3, a4] : List Nat).Nodup)
    (hlen : inp.length = 3)
    (hrag : ∀ i < inp.length, (inp.getD i []).length = (inp.getD 0 []).length)
    (hbr : ∀ r ∈ inp, ∀ b ∈ r, b < 256)
    (hs0 : s0 < 5) (hs1 : s1 < 5) (hs2 : s2 < 5) (hm0 : m0 < 5) (hm1 : m1 < 5)
    (h01 : s0 ≠ s1) (h02 : s0 ≠ s2) (h12 : s1 ≠ s2) :
    ∃ outA, Code (NewErasureCoder [a0, a1, a2] [a0, a1, a2, a3, a4]) inp = .ok outA ∧
      Code (NewErasureCoder
          [([a0, a1, a2, a3, a4] : List Nat).getD s0 0,
            ([a0, a1, a2, a3, a4] : List Nat).getD s1 0,
            ([a0, a1, a2, a3, a4] : List Nat).getD s2 0]
          [([a0, a1, a2, a3, a4] : List Nat).getD m0 0,
            ([a0, a1, a2, a3, a4] : List Nat).getD m1 0])
        [outA.getD s0 [], outA.getD s1 [], outA.getD s2 []]
      = .ok [outA.getD m0 [], outA.getD m1 []] := by
  obtain ⟨outA, hokA, hshA, hentA⟩ :=
    code_spec [a0, a1, a2] [a0, a1, a2, a3, a4] inp (by simp) (by simp [hlen]) hrag
  refine ⟨outA, hokA, ?_⟩
  have hrowB : ∀ t, t < 3 →
      (([outA.getD s0 [], outA.getD s1 [], outA.getD s2 []] : Mat).getD t []).length
        = (inp.getD 0 []).length := by
    intro t ht
    interval_cases t
    · exact hshA.2 s0 hs0
    · exact hshA.2 s1 hs1
    · exact hshA.2 s2 hs2
  obtain ⟨outB, hokB, hshB, hentB⟩ :=
    code_spec
      [([a0, a1, a2, a3, a4] : List Nat).getD s0 0,
        ([a0, a1, a2, a3, a4] : List Nat).getD s1 0,
        ([a0, a1, a2, a3, a4] : List Nat).getD s2 0]
      [([a0, a1, a2, a3, a4] : List Nat).getD m0 0,
        ([a0, a1, a2, a3, a4] : List Nat).getD m1 0]
      [outA.getD s0 [], outA.getD s1 [], outA.getD s2 []]
      (by simp) rfl
      (by intro i hi; rw [hrowB i hi, hrowB 0 (by norm_num)])
  rw [hokB]
  refine congrArg Except.ok
    (mat_ext outB _ 2 (inp.getD 0 []).length ?_ ?_ ?_)
  · exact ⟨hshB.1, fun k hk => by rw [hshB.2 k hk]; exact hrowB 0 (by norm_num)⟩
  · refine ⟨rfl, fun k hk => ?_⟩
    interval_cases k
    · exact hshA.2 m0 hm0
    · exact hshA.2 m1 hm1
  · intro u j hu hj
    have hjB : j <
        (([outA.getD s0 [], outA.getD s1 [], outA.getD s2 []] : Mat).getD 0 []).length := by
      rw [hrowB 0 (by norm_num)]; exact hj
    interval_cases u
    · rw [hentB 0 j (by simp) hjB]
      simp only [xorSum_list3]
      exact recov_col a0 a1 a2 a3 a4 inp outA s0 s1 s2 m0 j hb hnd hlen hrag hbr
        hs0 hs1 hs2 hm0 h01 h02 h12 hj hentA
    · rw [hentB 1 j (by simp) hjB]
      simp only [xorSum_list3]
      exact recov_col a0 a1 a2 a3 a4 inp outA s0 s1 s2 m1 j hb hnd hlen hrag hbr
        hs0 hs1 hs2 hm1 h01 h02 h12 hj hentA

theorem c3_round_trip_witness :
    ((∀ a ∈ ([0, 1, 2, 3, 4] : List Nat), a < 256) ∧
      ([0, 1, 2, 3, 4] : List Nat).Nodup) ∧
    (∃ outA, Code (NewErasureCoder [0, 1, 2] [0, 1, 2, 3, 4]) [[], [], []] = .ok outA ∧
      Code (NewErasureCoder
          [([0, 1, 2, 3, 4] : List Nat).getD 0 0,
            ([0, 1, 2, 3, 4] : List Nat).getD 3 0,
            ([0, 1, 2, 3, 4] : List Nat).getD 4 0]
          [([0, 1, 2, 3, 4] : List Nat).getD 1 0,
            ([0, 1, 2, 3, 4] : List Nat).getD 2 0])
        [outA.getD 0 [], outA.getD 3 [], outA.getD 4 []]
      = .ok [outA.getD 1 [], outA.getD 2 []]) :=
  ⟨⟨by decide, by decide⟩,
    c3_round_trip 0 1 2 3 4 [[], [], []] 0 3 4 1 2 (by decide) (by decide) rfl
      (by intro i hi; have hi3 : i < 3 := hi; interval_cases i <;> rfl)
      (by decide)
      (by decide) (by decide) (by decide) (by decide) (by decide)
      (by decide) (by decide) (by decide)⟩

/-! ### Update versus re-encoding -/

theorem getD_zipWith : ∀ (l1 l2 : List Nat) (j : Nat), j < l1.length → j < l2.length →
    (List.zipWith (fun a b => a ^^^ b) l1 l2).getD j 0 = l1.getD j 0 ^^^ l2.getD j 0 := by
  intro l1
  induction l1 with
  | nil => intro l2 j h1 _; simp at h1
  | cons a t ih =>
    intro l2 j h1 h2
    cases l2 with
    | nil => simp at h2
    | cons b t2 =>
      cases j with
      | zero => rfl
      | succ j2 => simpa using ih t2 j2 (by simpa using h1) (by simpa using h2)

/-- C4 counterexample: for a degree-256 coder the `uint8` truncation in
`Update`'s index guard makes `uint8(len(p.interp)) = 0`, so every `Update`
call panics even though re-encoding the updated inputs succeeds; the claimed
equivalence between the two fails at degree 256. -/
theorem c4_counterexample :
    Code (NewErasureCoder (List.replicate 256 0) [0]) (List.replicate 256 ([] : List Nat))
        = .ok [[]] ∧
    Code (NewErasureCoder (List.replicate 256 0) [0])
        ((List.replicate 256 ([] : List Nat)).set 0
          (List.zipWith (fun a b => a ^^^ b)
            ((List.replicate 256 ([] : List Nat)).getD 0 []) ([] : List Nat)))
      = .ok [[]] ∧
    Update (NewErasureCoder (List.replicate 256 0) [0]) 0 [] [[]]
      = .error .indexOutOfRange :=
  ⟨rfl, rfl, rfl⟩

/-- C4 amended: for coders of degree at most 255, updating one input row by a
delta and re-encoding yields exactly what `Update` applies to the old output:
`Code` of the inputs with row `i0` xored by `d` equals `Update i0 d` of
`Code`'s old output. -/
theorem c4_amended (x_in x_out : List Nat) (inp : Mat) (i0 : Nat) (d : List Nat) (out : Mat)
    (hdeg : x_in.length ≤ 255)
    (hpos : 0 < x_in.length)
    (hi0 : i0 < x_in.length)
    (hlen : inp.length = x_in.length)
    (hrag : ∀ i < inp.length, (inp.getD i []).length = (inp.getD 0 []).length)
    (hbr : ∀ r ∈ inp, ∀ b ∈ r, b < 256)
    (hd : d.length = (inp.getD 0 []).length)
    (hdb : ∀ b ∈ d, b < 256)
    (hok : Code (NewErasureCoder x_in x_out) inp = .ok out) :
    Code (NewErasureCoder x_in x_out)
        (inp.set i0 (List.zipWith (fun a b => a ^^^ b) (inp.getD i0 []) d))
      = Update (NewErasureCoder x_in x_out) i0 d out := by
  obtain ⟨out1, hok1, hsh1, hent1⟩ := code_spec x_in x_out inp hpos hlen hrag
  rw [hok] at hok1
  have hoe : out = out1 := Except.ok.inj hok1
  subst hoe
  have hi0i : i0 < inp.length := by omega
  have hzl : (List.zipWith (fun a b => a ^^^ b) (inp.getD i0 []) d).length
      = (inp.getD 0 []).length := by
    rw [List.length_zipWith, hrag i0 hi0i, hd]
    exact Nat.min_self _
  have hat' : (inp.set i0 (List.zipWith (fun a b => a ^^^ b) (inp.getD i0 []) d)).getD i0 []
      = List.zipWith (fun a b => a ^^^ b) (inp.getD i0 []) d :=
    getD_set_self inp i0 _ [] hi0i
  have hne' : ∀ i, i ≠ i0 →
      (inp.set i0 (List.zipWith (fun a b => a ^^^ b) (inp.getD i0 []) d)).getD i []
        = inp.getD i [] := by
    intro i hii
    exact getD_set_ne inp i0 i _ [] (fun h => hii h.symm)
  have hlen' : (inp.set i0 (List.zipWith (fun a b => a ^^^ b) (inp.getD i0 []) d)).length
      = inp.length := List.length_set inp i0 _
  have hall : ∀ i < inp.length,
      ((inp.set i0 (List.zipWith (fun a b => a ^^^ b) (inp.getD i0 []) d)).getD i []).length
        = (inp.getD 0 []).length := by
    intro i hi
    by_cases hii : i = i0
    · rw [hii, hat']; exact hzl
    · rw [hne' i hii]; exact hrag i hi
  obtain ⟨out2, hok2, hsh2, hent2⟩ :=
    code_spec x_in x_out (inp.set i0 (List.zipWith (fun a b => a ^^^ b) (inp.getD i0 []) d))
      hpos (by rw [hlen', hlen])
      (by
        intro i hi
        rw [hlen'] at hi
        rw [hall i hi, hall 0 (by omega)])
  have hrow0' : ((inp.set i0 (List.zipWith (fun a b => a ^^^ b) (inp.getD i0 []) d)).getD 0
      []).length = (inp.getD 0 []).length := hall 0 (by omega)
  have hUp : Update (NewErasureCoder x_in x_out) i0 d out
      = .ok (updateAccum (NewErasureCoder x_in x_out) i0 d out) := by
    rw [Update]
    rw [if_neg (by
      rw [Degree, interp_length, Nat.mod_eq_of_lt (by omega)]
      omega)]
    rw [if_neg (fun h => h (by rw [hsh1.1, interp_rowlen x_in x_out 0 hpos]))]
    rw [if_neg (fun h => h (by
      intro i hi
      rw [hsh1.1] at hi
      rw [hsh1.2 i hi]
      exact hd))]
  rw [hok2, hUp]
  refine congrArg Except.ok
    (mat_ext out2 _ x_out.length (inp.getD 0 []).length ?_ ?_ ?_)
  · exact ⟨hsh2.1, fun k hk => by rw [hsh2.2 k hk]; exact hrow0'⟩
  · refine ⟨?_, fun k hk => ?_⟩
    · rw [updateAccum_length]; exact hsh1.1
    · rw [updateAccum_rowlen]; exact hsh1.2 k hk
  · intro k j hk hj
    have hjd : j < d.length := by rw [hd]; exact hj
    have hj0 : j < (inp.getD i0 []).length := by rw [hrag i0 hi0i]; exact hj
    have hLlt : lagrange x_in i0 (x_out.getD k 0) < 256 := lagrange_lt _ _ _
    have hvlt : mget inp i0 j < 256 := mget_lt_of_bytes inp hbr i0 j hi0i hj0
    have hdlt : d.getD j 0 < 256 := by
      rw [getD_eq_getElem d j 0 hjd]
      exact hdb _ (List.getElem_mem _)
    rw [hent2 k j hk (by rw [hrow0']; exact hj)]
    rw [updateAccum_mget (NewErasureCoder x_in x_out) i0 d out x_out.length
      (interp_rowlen x_in x_out i0 hi0) (le_of_eq hsh1.1.symm)
      (fun k2 hk2 => by
        have h2 := hsh1.2 k2 hk2
        omega) k j]
    rw [if_pos ⟨hk, hjd⟩]
    rw [hent1 k j hk hj, interp_entry x_in x_out i0 k hi0 hk]
    have hgi0 : mget (inp.set i0 (List.zipWith (fun a b => a ^^^ b) (inp.getD i0 []) d)) i0 j
        = mget inp i0 j ^^^ d.getD j 0 := by
      rw [mget, hat']
      exact getD_zipWith _ _ j hj0 hjd
    have hat2 : mult
        (mget (inp.set i0 (List.zipWith (fun a b => a ^^^ b) (inp.getD i0 []) d)) i0 j)
        (lagrange x_in i0 (x_out.getD k 0))
        = mult (mget inp i0 j) (lagrange x_in i0 (x_out.getD k 0))
          ^^^ mult (d.getD j 0) (lagrange x_in i0 (x_out.getD k 0)) := by
      rw [hgi0]
      exact mult_distrib_right (lagrange x_in i0 (x_out.getD k 0)) (mget inp i0 j)
        (d.getD j 0) hLlt hvlt hdlt
    have hsame2 : ∀ i, i < x_in.length → i ≠ i0 →
        mult (mget (inp.set i0 (List.zipWith (fun a b => a ^^^ b) (inp.getD i0 []) d)) i j)
          (lagrange x_in i (x_out.getD k 0))
          = mult (mget inp i j) (lagrange x_in i (x_out.getD k 0)) := by
      intro i hi2 hii
      exact congrArg
        (fun w => mult (List.getD w j 0) (lagrange x_in i (x_out.getD k 0)))
        (hne' i hii)
    exact xorSum_update _ _ i0 _ hat2 x_in.length hi0 hsame2

theorem c4_amended_witness :
    (([0, 1, 2] : List Nat).length ≤ 255 ∧ 1 < ([0, 1, 2] : List Nat).length) ∧
    Code (NewErasureCoder [0, 1, 2] [0, 1, 2, 3, 4]) [[], [], []]
        = .ok [[], [], [], [], []] ∧
    Code (NewErasureCoder [0, 1, 2] [0, 1, 2, 3, 4])
        (([[], [], []] : Mat).set 1
          (List.zipWith (fun a b => a ^^^ b) (([[], [], []] : Mat).getD 1 []) []))
      = Update (NewErasureCoder [0, 1, 2] [0, 1, 2, 3, 4]) 1 [] [[], [], [], [], []] :=
  ⟨⟨by decide, by decide⟩, rfl,
    c4_amended [0, 1, 2] [0, 1, 2, 3, 4] [[], [], []] 1 [] [[], [], [], [], []]
      (by decide) (by decide) (by decide) rfl
      (by intro i hi; have hi3 : i < 3 := hi; interval_cases i <;> rfl)
      (by decide) rfl (by decide) rfl⟩

end RS
